import Mathlib

/-!
Verification of the CLOWarden state-reconciliation engine (cncf/clowarden).

This file gives a shallow embedding, in Lean, of the engine's pure core:

* the directory model and `Directory::diff`
  (src/clowarden-core/src/directory/mod.rs);
* the GitHub service state model, `State::repositories_diff`, `State::diff`,
  the org-admin folding pass of `State::new_from_config` and the
  collaborator-role validation pass of `State::validate`
  (src/clowarden-core/src/services/github/state.rs);
* the sheriff configuration post-processing passes
  `process_composite_teams` and `remove_duplicates`
  (src/clowarden-core/src/directory/legacy.rs);
* the change-application loop of `Handler::reconcile`
  (src/clowarden-core/src/services/github/mod.rs), with the platform
  gateway abstracted as a response oracle.

The Rust code iterates `HashMap`/`HashSet` collections whose iteration
order is unspecified (std's hasher is randomly seeded per process).  The
embedding makes that explicit: the diff functions take an iteration-order
parameter `σ : List String → List String`, applied to each canonical key
list before iterating; `IsIterOrder σ` says that `σ` only reorders its
input.  Everything else is a direct translation of the source.
-/

namespace Clowarden

/-- Role a user or team may have been assigned
(state.rs `enum Role`, `derive(PartialOrd)`, `#[default] Read`).
Rust's derived `PartialOrd` orders the variants in declaration order. -/
inductive Role where
  | read
  | triage
  | write
  | maintain
  | admin
deriving DecidableEq, Repr

/-- Position of a role in the declaration order, used to model the derived
`PartialOrd` of the Rust enum. -/
def Role.toNat : Role → Nat
  | .read => 0
  | .triage => 1
  | .write => 2
  | .maintain => 3
  | .admin => 4

instance : LT Role := ⟨fun a b => a.toNat < b.toNat⟩

instance : LE Role := ⟨fun a b => a.toNat ≤ b.toNat⟩

instance (a b : Role) : Decidable (a < b) :=
  inferInstanceAs (Decidable (a.toNat < b.toNat))

instance (a b : Role) : Decidable (a ≤ b) :=
  inferInstanceAs (Decidable (a.toNat ≤ b.toNat))

instance : Inhabited Role := ⟨Role.read⟩

/-- Repository visibility (state.rs `enum Visibility`, `#[default] Public`).
`priv` stands for the Rust variant `Private` (`private` is a Lean keyword). -/
inductive Visibility where
  | internal
  | priv
  | public
deriving DecidableEq, Repr

instance : Inhabited Visibility := ⟨Visibility.public⟩

/-- Team configuration (directory/mod.rs `struct Team`).  The Rust
`annotations: HashMap<String, String>` is modelled as an association list. -/
structure Team where
  name : String
  display_name : Option String := none
  maintainers : List String := []
  members : List String := []
  annotations : List (String × String) := []
deriving DecidableEq, Repr

instance : Inhabited Team := ⟨{ name := "" }⟩

/-- User profile (directory/mod.rs `struct User`).  The Rust
`annotations: HashMap<String, String>` is modelled as an association list;
note Rust's `HashMap` equality ignores entry order, which no claim in this
file depends on. -/
structure User where
  full_name : String
  user_name : Option String := none
  email : Option String := none
  image_url : Option String := none
  bio : Option String := none
  website : Option String := none
  company : Option String := none
  pronouns : Option String := none
  location : Option String := none
  slack_id : Option String := none
  linkedin_url : Option String := none
  twitter_url : Option String := none
  github_url : Option String := none
  wechat_url : Option String := none
  youtube_url : Option String := none
  languages : Option (List String) := none
  annotations : List (String × String) := []
deriving DecidableEq, Repr

instance : Inhabited User := ⟨{ full_name := "" }⟩

/-- Directory configuration (directory/mod.rs `struct Directory`). -/
structure Directory where
  teams : List Team := []
  users : List User := []
deriving DecidableEq, Repr

/-- Represents a change in the directory (directory/mod.rs
`enum DirectoryChange`). -/
inductive DirectoryChange where
  | TeamAdded (team : Team)
  | TeamRemoved (team_name : String)
  | TeamMaintainerAdded (team_name user_name : String)
  | TeamMaintainerRemoved (team_name user_name : String)
  | TeamMemberAdded (team_name user_name : String)
  | TeamMemberRemoved (team_name user_name : String)
  | UserAdded (full_name : String)
  | UserRemoved (full_name : String)
  | UserUpdated (full_name : String)
deriving DecidableEq, Repr

/-- Repository information (state.rs `struct Repository`).  The Rust
`Option<HashMap<_, Role>>` fields are modelled as optional association
lists; the maps are built by key insertion, so lookups take the last
binding for a key. -/
structure Repository where
  name : String
  collaborators : Option (List (String × Role)) := none
  teams : Option (List (String × Role)) := none
  visibility : Option Visibility := none
deriving DecidableEq, Repr

instance : Inhabited Repository := ⟨{ name := "" }⟩

/-- Represents a repository change (state.rs `enum RepositoryChange`). -/
inductive RepositoryChange where
  | RepositoryAdded (repo : Repository)
  | TeamAdded (repo_name team_name : String) (role : Role)
  | TeamRemoved (repo_name team_name : String)
  | TeamRoleUpdated (repo_name team_name : String) (role : Role)
  | CollaboratorAdded (repo_name user_name : String) (role : Role)
  | CollaboratorRemoved (repo_name user_name : String)
  | CollaboratorRoleUpdated (repo_name user_name : String) (role : Role)
  | VisibilityUpdated (repo_name : String) (visibility : Visibility)
deriving DecidableEq, Repr

/-- GitHub's service state (state.rs `struct State`). -/
structure State where
  directory : Directory := {}
  repositories : List Repository := []
deriving DecidableEq, Repr

/-- Represents the changes between two states (state.rs `struct Changes`). -/
structure Changes where
  directory : List DirectoryChange := []
  repositories : List RepositoryChange := []
deriving DecidableEq, Repr

/-! ### Key maps

The Rust diffs build `HashMap<&Name, &T>` maps via `collect()`; inserting
the same key twice keeps the last value.  `keysBy` is the key set (as a
canonical duplicate-free list) and `lookupBy` the last-wins lookup. -/

/-- Canonical duplicate-free list of keys of the map built from `l` with
key function `f`. -/
def keysBy (f : α → String) (l : List α) : List String :=
  (l.map f).dedup

/-- Last-wins lookup in the map built from `l` with key function `f`,
matching `HashMap::insert` overwriting earlier bindings. -/
def lookupBy (f : α → String) (l : List α) (k : String) : Option α :=
  l.reverse.find? (fun a => f a == k)

/-- The list of records that actually participate in a keyed map: one
record per key, the last one with that key. -/
def collapseBy (f : α → String) (l : List α) : List α :=
  (keysBy f l).filterMap (lookupBy f l)

/-- An iteration-order oracle: a function that only reorders each key
list.  This models the unspecified `HashMap`/`HashSet` iteration order of
the Rust standard library. -/
def IsIterOrder (σ : List String → List String) : Prop :=
  ∀ l : List String, List.Perm (σ l) l

/-! ### Directory diff (directory/mod.rs, `Directory::diff`) -/

/-- Per-team membership changes emitted by `Directory::diff` for a team
present on both sides (directory/mod.rs lines 83-111): maintainers
removed, members removed, maintainers added, members added, in that
order. -/
def teamInnerChanges (σ : List String → List String) (k : String)
    (told tnew : Team) : List DirectoryChange :=
  ((σ told.maintainers.dedup).filter
      (fun u => !tnew.maintainers.contains u)).map
    (DirectoryChange.TeamMaintainerRemoved k) ++
  ((σ told.members.dedup).filter
      (fun u => !tnew.members.contains u)).map
    (DirectoryChange.TeamMemberRemoved k) ++
  ((σ tnew.maintainers.dedup).filter
      (fun u => !told.maintainers.contains u)).map
    (DirectoryChange.TeamMaintainerAdded k) ++
  ((σ tnew.members.dedup).filter
      (fun u => !told.members.contains u)).map
    (DirectoryChange.TeamMemberAdded k)

/-- The changes detected between two directory instances
(directory/mod.rs, `Directory::diff`): teams removed, teams added,
per-team membership changes for teams on both sides, users removed, users
added, users updated. -/
def Directory.diff (old new : Directory) (σ : List String → List String) :
    List DirectoryChange :=
  let ko := keysBy Team.name old.teams
  let kn := keysBy Team.name new.teams
  let uo := keysBy User.full_name old.users
  let un := keysBy User.full_name new.users
  ((σ ko).filter (fun k => !kn.contains k)).map DirectoryChange.TeamRemoved ++
  ((σ kn).filter (fun k => !ko.contains k)).map
    (fun k => DirectoryChange.TeamAdded ((lookupBy Team.name new.teams k).getD default)) ++
  ((σ kn).filter (fun k => ko.contains k)).flatMap
    (fun k => teamInnerChanges σ k
      ((lookupBy Team.name old.teams k).getD default)
      ((lookupBy Team.name new.teams k).getD default)) ++
  ((σ uo).filter (fun k => !un.contains k)).map DirectoryChange.UserRemoved ++
  ((σ un).filter (fun k => !uo.contains k)).map DirectoryChange.UserAdded ++
  ((σ un).filter (fun k => uo.contains k)).filterMap
    (fun k =>
      if lookupBy User.full_name new.users k ≠ lookupBy User.full_name old.users k
      then some (DirectoryChange.UserUpdated k) else none)

/-! ### Repositories diff (state.rs, `State::repositories_diff`) -/

/-- Role lookup used by the `team_role`/`user_role` closures of
`repositories_diff` (state.rs lines 361-377): map lookup with
`unwrap_or_default()`, and `Role::default()` when the map is absent. -/
def roleLookup (entries : Option (List (String × Role))) (k : String) : Role :=
  ((lookupBy Prod.fst (entries.getD []) k).map Prod.snd).getD Role.read

/-- Per-repository changes emitted by `repositories_diff` for a repository
present on both sides (state.rs lines 393-478): teams removed, teams
added, team roles updated, collaborators removed, collaborators added,
collaborator roles updated, visibility updated, in that order.  Note the
visibility comparison is on the `Option` values, before any defaulting;
only the emitted value is defaulted. -/
def repoInnerChanges (σ : List String → List String) (k : String)
    (rold rnew : Repository) : List RepositoryChange :=
  let tko := keysBy Prod.fst (rold.teams.getD [])
  let tkn := keysBy Prod.fst (rnew.teams.getD [])
  let cko := keysBy Prod.fst (rold.collaborators.getD [])
  let ckn := keysBy Prod.fst (rnew.collaborators.getD [])
  ((σ tko).filter (fun t => !tkn.contains t)).map
    (RepositoryChange.TeamRemoved k) ++
  ((σ tkn).filter (fun t => !tko.contains t)).map
    (fun t => RepositoryChange.TeamAdded k t (roleLookup rnew.teams t)) ++
  ((σ tkn).filter (fun t => tko.contains t)).filterMap
    (fun t =>
      if roleLookup rnew.teams t ≠ roleLookup rold.teams t
      then some (RepositoryChange.TeamRoleUpdated k t (roleLookup rnew.teams t))
      else none) ++
  ((σ cko).filter (fun u => !ckn.contains u)).map
    (RepositoryChange.CollaboratorRemoved k) ++
  ((σ ckn).filter (fun u => !cko.contains u)).map
    (fun u => RepositoryChange.CollaboratorAdded k u (roleLookup rnew.collaborators u)) ++
  ((σ ckn).filter (fun u => cko.contains u)).filterMap
    (fun u =>
      if roleLookup rnew.collaborators u ≠ roleLookup rold.collaborators u
      then some (RepositoryChange.CollaboratorRoleUpdated k u (roleLookup rnew.collaborators u))
      else none) ++
  (if rnew.visibility ≠ rold.visibility
   then [RepositoryChange.VisibilityUpdated k (rnew.visibility.getD Visibility.public)]
   else [])

/-- The changes detected between two lists of repositories (state.rs,
`State::repositories_diff`): repositories added (no removal variant
exists), then per-repository changes for repositories on both sides. -/
def repositoriesDiff (old new : List Repository)
    (σ : List String → List String) : List RepositoryChange :=
  let ko := keysBy Repository.name old
  let kn := keysBy Repository.name new
  ((σ kn).filter (fun k => !ko.contains k)).map
    (fun k => RepositoryChange.RepositoryAdded ((lookupBy Repository.name new k).getD default)) ++
  ((σ kn).filter (fun k => ko.contains k)).flatMap
    (fun k => repoInnerChanges σ k
      ((lookupBy Repository.name old k).getD default)
      ((lookupBy Repository.name new k).getD default))

/-- Whether a directory change is one of the user-profile change kinds,
which `State::diff` filters out (state.rs lines 251-259). -/
def DirectoryChange.isUserChange : DirectoryChange → Bool
  | .UserAdded _ => true
  | .UserRemoved _ => true
  | .UserUpdated _ => true
  | _ => false

/-- The changes detected between two state instances (state.rs,
`State::diff`): the directory diff without user-profile changes, plus the
repositories diff. -/
def State.diff (old new : State) (σ : List String → List String) : Changes :=
  { directory :=
      (Directory.diff old.directory new.directory σ).filter
        (fun c => !c.isUserChange),
    repositories := repositoriesDiff old.repositories new.repositories σ }

/-! ### Basic facts about iteration orders -/

theorem IsIterOrder.mem_iff {σ : List String → List String}
    (h : IsIterOrder σ) {l : List String} {x : String} : x ∈ σ l ↔ x ∈ l :=
  (h l).mem_iff

theorem IsIterOrder.map_nil {σ : List String → List String}
    (h : IsIterOrder σ) : σ [] = [] :=
  List.perm_nil.mp (h [])

theorem IsIterOrder.map_singleton {σ : List String → List String}
    (h : IsIterOrder σ) (a : String) : σ [a] = [a] :=
  List.perm_singleton.mp (h [a])

theorem isIterOrder_id : IsIterOrder (fun l => l) :=
  fun l => List.Perm.refl l

theorem isIterOrder_reverse : IsIterOrder (fun l => l.reverse) :=
  fun l => List.reverse_perm l

/-- If every element of `l` lies in `l'`, the "not in the other set"
filter over an iteration of `l` is empty. -/
theorem filter_not_contains_eq_nil {σ : List String → List String}
    (h : IsIterOrder σ) {l l' : List String} (hsub : ∀ x ∈ l, x ∈ l') :
    (σ l).filter (fun k => !l'.contains k) = [] := by
  apply List.filter_eq_nil_iff.mpr
  intro a ha
  have hmem : a ∈ l' := hsub a (h.mem_iff.mp ha)
  simpa using hmem

/-- The per-team changes of a team diffed against itself are empty. -/
theorem teamInnerChanges_self {σ : List String → List String}
    (h : IsIterOrder σ) (k : String) (t : Team) :
    teamInnerChanges σ k t t = [] := by
  have hfilter : ∀ l : List String,
      (σ l.dedup).filter (fun u => !l.contains u) = [] := by
    intro l
    apply filter_not_contains_eq_nil h
    intro x hx
    exact List.mem_dedup.mp hx
  unfold teamInnerChanges
  simp only [hfilter]
  simp

/-- The per-repository changes of a repository diffed against itself are
empty. -/
theorem repoInnerChanges_self {σ : List String → List String}
    (h : IsIterOrder σ) (k : String) (r : Repository) :
    repoInnerChanges σ k r r = [] := by
  have hfilter : ∀ l : List (String × Role),
      (σ (keysBy Prod.fst l)).filter
        (fun t => !(keysBy Prod.fst l).contains t) = [] :=
    fun l => filter_not_contains_eq_nil h (fun x hx => hx)
  have hupd : ∀ (e : Option (List (String × Role)))
      (mk : String → Role → RepositoryChange),
      (((σ (keysBy Prod.fst (e.getD []))).filter
          (fun t => (keysBy Prod.fst (e.getD [])).contains t)).filterMap
        (fun t => if roleLookup e t ≠ roleLookup e t
                  then some (mk t (roleLookup e t)) else none)) = [] := by
    intro e mk
    apply List.filterMap_eq_nil_iff.mpr
    intro a _
    simp
  unfold repoInnerChanges
  simp only [hfilter, hupd]
  simp

/-- The directory diff of a directory against itself is empty. -/
theorem Directory.diff_self {σ : List String → List String}
    (h : IsIterOrder σ) (d : Directory) : Directory.diff d d σ = [] := by
  unfold Directory.diff
  have hrem := @filter_not_contains_eq_nil σ h
    (keysBy Team.name d.teams) (keysBy Team.name d.teams) (fun x hx => hx)
  have hurem := @filter_not_contains_eq_nil σ h
    (keysBy User.full_name d.users) (keysBy User.full_name d.users)
    (fun x hx => hx)
  have hinner : ((σ (keysBy Team.name d.teams)).filter
      (fun k => (keysBy Team.name d.teams).contains k)).flatMap
      (fun k => teamInnerChanges σ k
        ((lookupBy Team.name d.teams k).getD default)
        ((lookupBy Team.name d.teams k).getD default)) = [] := by
    apply List.flatMap_eq_nil_iff.mpr
    intro k _
    exact teamInnerChanges_self h k _
  have hupd : ((σ (keysBy User.full_name d.users)).filter
      (fun k => (keysBy User.full_name d.users).contains k)).filterMap
      (fun k =>
        if lookupBy User.full_name d.users k ≠ lookupBy User.full_name d.users k
        then some (DirectoryChange.UserUpdated k) else none) = [] := by
    apply List.filterMap_eq_nil_iff.mpr
    intro a _
    simp
  simp only [hrem, hurem, hinner, hupd]
  simp

/-- The repositories diff of a repository list against itself is empty. -/
theorem repositoriesDiff_self {σ : List String → List String}
    (h : IsIterOrder σ) (repos : List Repository) :
    repositoriesDiff repos repos σ = [] := by
  unfold repositoriesDiff
  have hadd := @filter_not_contains_eq_nil σ h
    (keysBy Repository.name repos) (keysBy Repository.name repos)
    (fun x hx => hx)
  have hinner : ((σ (keysBy Repository.name repos)).filter
      (fun k => (keysBy Repository.name repos).contains k)).flatMap
      (fun k => repoInnerChanges σ k
        ((lookupBy Repository.name repos k).getD default)
        ((lookupBy Repository.name repos k).getD default)) = [] := by
    apply List.flatMap_eq_nil_iff.mpr
    intro k _
    exact repoInnerChanges_self h k _
  simp only [hadd, hinner]
  simp

/-- Claim C1: diff self-identity.  For every state `A` and every hash
iteration order, `Directory::diff(A, A)` produces no `DirectoryChange` and
`State::repositories_diff(A.repositories, A.repositories)` produces no
`RepositoryChange`; consequently `State::diff(A, A)` is the empty change
set. -/
theorem diff_self_identity (d : Directory) (repos : List Repository)
    (σ : List String → List String) (h : IsIterOrder σ) :
    Directory.diff d d σ = [] ∧ repositoriesDiff repos repos σ = [] ∧
      State.diff ⟨d, repos⟩ ⟨d, repos⟩ σ = ⟨[], []⟩ := by
  refine ⟨Directory.diff_self h d, repositoriesDiff_self h repos, ?_⟩
  unfold State.diff
  rw [Directory.diff_self h d, repositoriesDiff_self h repos]
  rfl

/-- Witness for C1 at a concrete state and the identity iteration order. -/
theorem diff_self_identity_witness :
    Directory.diff
      ⟨[{ name := "t1", maintainers := ["u1"], members := ["u2"] }],
       [{ full_name := "user one" }]⟩
      ⟨[{ name := "t1", maintainers := ["u1"], members := ["u2"] }],
       [{ full_name := "user one" }]⟩ (fun l => l) = [] ∧
    repositoriesDiff
      [{ name := "r1", teams := some [("t1", Role.write)],
         visibility := some Visibility.public }]
      [{ name := "r1", teams := some [("t1", Role.write)],
         visibility := some Visibility.public }] (fun l => l) = [] ∧
    State.diff
      ⟨⟨[{ name := "t1", maintainers := ["u1"], members := ["u2"] }],
        [{ full_name := "user one" }]⟩,
       [{ name := "r1", teams := some [("t1", Role.write)],
          visibility := some Visibility.public }]⟩
      ⟨⟨[{ name := "t1", maintainers := ["u1"], members := ["u2"] }],
        [{ full_name := "user one" }]⟩,
       [{ name := "r1", teams := some [("t1", Role.write)],
          visibility := some Visibility.public }]⟩ (fun l => l) = ⟨[], []⟩ :=
  diff_self_identity _ _ _ isIterOrder_id

/-! ### Claim C9: promotion order -/

/-- Claim C9: promotion order.  For the old directory containing team `t1`
with maintainers `[]` and members `["u1"]` and the new directory containing
team `t1` with maintainers `["u1"]` and members `[]`, `Directory::diff`
returns exactly `[TeamMemberRemoved("t1","u1"),
TeamMaintainerAdded("t1","u1")]` — the removal precedes the addition —
under every hash iteration order. -/
theorem promote_to_maintainer_order (σ : List String → List String)
    (h : IsIterOrder σ) :
    Directory.diff
      ⟨[{ name := "t1", maintainers := [], members := ["u1"] }], []⟩
      ⟨[{ name := "t1", maintainers := ["u1"], members := [] }], []⟩ σ =
      [DirectoryChange.TeamMemberRemoved "t1" "u1",
       DirectoryChange.TeamMaintainerAdded "t1" "u1"] := by
  simp +decide [Directory.diff, teamInnerChanges, keysBy, lookupBy,
    h.map_nil, h.map_singleton]

/-- Witness for C9 at the identity iteration order. -/
theorem promote_to_maintainer_order_witness :
    Directory.diff
      ⟨[{ name := "t1", maintainers := [], members := ["u1"] }], []⟩
      ⟨[{ name := "t1", maintainers := ["u1"], members := [] }], []⟩
      (fun l => l) =
      [DirectoryChange.TeamMemberRemoved "t1" "u1",
       DirectoryChange.TeamMaintainerAdded "t1" "u1"] :=
  promote_to_maintainer_order (fun l => l) isIterOrder_id

/-! ### Claim C2: diff output order -/

theorem perm_of_iterOrders {σ σ' : List String → List String}
    (hσ : IsIterOrder σ) (hσ' : IsIterOrder σ') (l : List String) :
    List.Perm (σ l) (σ' l) :=
  (hσ l).trans (hσ' l).symm

/-- The per-team changes are permutation-invariant in the iteration
order. -/
theorem teamInnerChanges_perm {σ σ' : List String → List String}
    (hσ : IsIterOrder σ) (hσ' : IsIterOrder σ') (k : String)
    (told tnew : Team) :
    List.Perm (teamInnerChanges σ k told tnew)
      (teamInnerChanges σ' k told tnew) := by
  have hp := perm_of_iterOrders hσ hσ'
  unfold teamInnerChanges
  refine List.Perm.append (List.Perm.append (List.Perm.append ?_ ?_) ?_) ?_
  all_goals exact ((hp _).filter _).map _

/-- The per-repository changes are permutation-invariant in the iteration
order. -/
theorem repoInnerChanges_perm {σ σ' : List String → List String}
    (hσ : IsIterOrder σ) (hσ' : IsIterOrder σ') (k : String)
    (rold rnew : Repository) :
    List.Perm (repoInnerChanges σ k rold rnew)
      (repoInnerChanges σ' k rold rnew) := by
  have hp := perm_of_iterOrders hσ hσ'
  unfold repoInnerChanges
  refine List.Perm.append (List.Perm.append (List.Perm.append
    (List.Perm.append (List.Perm.append (List.Perm.append ?_ ?_) ?_) ?_) ?_) ?_)
    (List.Perm.refl _)
  · exact ((hp _).filter _).map _
  · exact ((hp _).filter _).map _
  · exact ((hp _).filter _).filterMap _
  · exact ((hp _).filter _).map _
  · exact ((hp _).filter _).map _
  · exact ((hp _).filter _).filterMap _

/-- The directory diff is permutation-invariant in the iteration order. -/
theorem Directory.diff_perm {σ σ' : List String → List String}
    (hσ : IsIterOrder σ) (hσ' : IsIterOrder σ') (old new : Directory) :
    List.Perm (Directory.diff old new σ) (Directory.diff old new σ') := by
  have hp := perm_of_iterOrders hσ hσ'
  unfold Directory.diff
  refine List.Perm.append (List.Perm.append (List.Perm.append
    (List.Perm.append (List.Perm.append ?_ ?_) ?_) ?_) ?_) ?_
  · exact ((hp _).filter _).map _
  · exact ((hp _).filter _).map _
  · exact (List.Perm.flatMap_right _ ((hp _).filter _)).trans
      (List.Perm.flatMap_left _ (fun k _ => teamInnerChanges_perm hσ hσ' k _ _))
  · exact ((hp _).filter _).map _
  · exact ((hp _).filter _).map _
  · exact ((hp _).filter _).filterMap _

/-- The repositories diff is permutation-invariant in the iteration
order. -/
theorem repositoriesDiff_perm {σ σ' : List String → List String}
    (hσ : IsIterOrder σ) (hσ' : IsIterOrder σ') (old new : List Repository) :
    List.Perm (repositoriesDiff old new σ) (repositoriesDiff old new σ') := by
  have hp := perm_of_iterOrders hσ hσ'
  unfold repositoriesDiff
  refine List.Perm.append ?_ ?_
  · exact ((hp _).filter _).map _
  · exact (List.Perm.flatMap_right _ ((hp _).filter _)).trans
      (List.Perm.flatMap_left _ (fun k _ => repoInnerChanges_perm hσ hσ' k _ _))

/-- Counterexample for claim C2: two valid hash iteration orders (identity
and reversal) give two different output sequences for the same pair of
directories, and under the reversed order the team names are emitted as
`["b", "a"]`, which is not lexicographic.  The code never sorts: it
iterates `HashSet`/`HashMap` collections directly. -/
theorem diff_order_not_lexicographic :
    IsIterOrder (fun l => l) ∧ IsIterOrder (fun l => l.reverse) ∧
    Directory.diff ⟨[], []⟩
      ⟨[{ name := "a", maintainers := ["m"] },
        { name := "b", maintainers := ["m"] }], []⟩ (fun l => l) =
      [DirectoryChange.TeamAdded { name := "a", maintainers := ["m"] },
       DirectoryChange.TeamAdded { name := "b", maintainers := ["m"] }] ∧
    Directory.diff ⟨[], []⟩
      ⟨[{ name := "a", maintainers := ["m"] },
        { name := "b", maintainers := ["m"] }], []⟩ (fun l => l.reverse) =
      [DirectoryChange.TeamAdded { name := "b", maintainers := ["m"] },
       DirectoryChange.TeamAdded { name := "a", maintainers := ["m"] }] :=
  ⟨isIterOrder_id, isIterOrder_reverse, by decide, by decide⟩

/-- Claim C2 (amended): the diff output is deterministic only up to the
hash iteration order: for any two valid iteration orders the two output
sequences of `Directory::diff` and of `State::repositories_diff` are
permutations of each other (the multiset of changes is well defined), but
the sequence itself follows the iteration order and is not sorted. -/
theorem diff_deterministic_up_to_permutation (old new : Directory)
    (ro rn : List Repository) (σ σ' : List String → List String)
    (hσ : IsIterOrder σ) (hσ' : IsIterOrder σ') :
    List.Perm (Directory.diff old new σ) (Directory.diff old new σ') ∧
    List.Perm (repositoriesDiff ro rn σ) (repositoriesDiff ro rn σ') :=
  ⟨Directory.diff_perm hσ hσ' old new, repositoriesDiff_perm hσ hσ' ro rn⟩

/-- Witness for the amended C2 at concrete states and orders. -/
theorem diff_deterministic_up_to_permutation_witness :
    List.Perm
      (Directory.diff ⟨[], []⟩
        ⟨[{ name := "a", maintainers := ["m"] },
          { name := "b", maintainers := ["m"] }], []⟩ (fun l => l))
      (Directory.diff ⟨[], []⟩
        ⟨[{ name := "a", maintainers := ["m"] },
          { name := "b", maintainers := ["m"] }], []⟩ (fun l => l.reverse)) ∧
    List.Perm
      (repositoriesDiff [] [{ name := "r1" }] (fun l => l))
      (repositoriesDiff [] [{ name := "r1" }] (fun l => l.reverse)) :=
  diff_deterministic_up_to_permutation _ _ _ _ _ _
    isIterOrder_id isIterOrder_reverse

/-! ### Facts about keyed lookups -/

theorem lookupBy_name {f : α → String} {l : List α} {k : String} {a : α}
    (h : lookupBy f l k = some a) : f a = k := by
  have := List.find?_some h
  exact eq_of_beq (by simpa using this)

theorem lookupBy_mem {f : α → String} {l : List α} {k : String} {a : α}
    (h : lookupBy f l k = some a) : a ∈ l := by
  have := List.mem_of_find?_eq_some h
  exact List.mem_reverse.mp this

theorem mem_keysBy_iff {f : α → String} {l : List α} {k : String} :
    k ∈ keysBy f l ↔ ∃ a ∈ l, f a = k := by
  unfold keysBy
  rw [List.mem_dedup, List.mem_map]

theorem mem_keysBy_of_lookupBy {f : α → String} {l : List α} {k : String}
    {a : α} (h : lookupBy f l k = some a) : k ∈ keysBy f l :=
  mem_keysBy_iff.mpr ⟨a, lookupBy_mem h, lookupBy_name h⟩

theorem lookupBy_isSome_of_mem_keysBy {f : α → String} {l : List α}
    {k : String} (h : k ∈ keysBy f l) : ∃ a, lookupBy f l k = some a := by
  obtain ⟨a, ha, hfa⟩ := mem_keysBy_iff.mp h
  have : ∃ x ∈ l.reverse, (f x == k) = true :=
    ⟨a, List.mem_reverse.mpr ha, by simp [hfa]⟩
  obtain ⟨b, hb⟩ := Option.isSome_iff_exists.mp (List.find?_isSome.mpr this)
  exact ⟨b, hb⟩

/-! ### Claim C3: visibility comparison -/

/-- Counterexample for claim C3: the code compares the two `Option`
visibilities directly (state.rs line 472), without defaulting a missing
one, so old visibility `None` versus new visibility `Some(Public)` does
emit `VisibilityUpdated("r1", Public)`, while the claim says no change is
emitted. -/
theorem visibility_not_defaulted_cex :
    repositoriesDiff [{ name := "r1", visibility := none }]
      [{ name := "r1", visibility := some Visibility.public }] (fun l => l) =
      [RepositoryChange.VisibilityUpdated "r1" Visibility.public] := by
  decide

/-- Membership of a `VisibilityUpdated` change in the per-repository
change block. -/
theorem visibilityUpdated_mem_repoInnerChanges
    {σ : List String → List String} {k r : String} {v : Visibility}
    {a b : Repository} :
    RepositoryChange.VisibilityUpdated r v ∈ repoInnerChanges σ k a b ↔
      (r = k ∧ b.visibility ≠ a.visibility ∧
        v = b.visibility.getD Visibility.public) := by
  unfold repoInnerChanges
  simp only [List.mem_append, List.mem_map, List.mem_filterMap]
  constructor
  · intro hmem
    rcases hmem with ((((((⟨t, _, ht⟩ | ⟨t, _, ht⟩) | ⟨t, _, ht⟩) | ⟨t, _, ht⟩)
      | ⟨t, _, ht⟩) | ⟨t, _, ht⟩) | hvis)
    · exact absurd ht (by simp)
    · exact absurd ht (by simp)
    · revert ht; split <;> simp
    · exact absurd ht (by simp)
    · exact absurd ht (by simp)
    · revert ht; split <;> simp
    · revert hvis; split <;> simp_all
  · rintro ⟨rfl, hne, rfl⟩
    right
    simp [hne]

/-- Claim C3 (amended): for two repositories with the same name present in
both states, `repositories_diff` emits `VisibilityUpdated` if and only if
the two optional visibilities differ structurally — no defaulting happens
before the comparison — and the emitted visibility is the new repository's
visibility with a missing value defaulted to public.  In particular
`None` versus `Some(public)` does emit a change. -/
theorem visibility_updated_iff (old new : List Repository)
    (σ : List String → List String) (h : IsIterOrder σ) (r : String)
    (ro rn : Repository) (ho : lookupBy Repository.name old r = some ro)
    (hn : lookupBy Repository.name new r = some rn) (v : Visibility) :
    RepositoryChange.VisibilityUpdated r v ∈ repositoriesDiff old new σ ↔
      (rn.visibility ≠ ro.visibility ∧
        v = rn.visibility.getD Visibility.public) := by
  unfold repositoriesDiff
  simp only [List.mem_append]
  have hadded : ¬ RepositoryChange.VisibilityUpdated r v ∈
      ((σ (keysBy Repository.name new)).filter
        (fun k => !(keysBy Repository.name old).contains k)).map
      (fun k => RepositoryChange.RepositoryAdded
        ((lookupBy Repository.name new k).getD default)) := by
    intro hmem
    obtain ⟨k, _, hk⟩ := List.mem_map.mp hmem
    exact absurd hk (by simp)
  constructor
  · intro hmem
    rcases hmem with hmem | hmem
    · exact absurd hmem hadded
    · obtain ⟨k, _, hin⟩ := List.mem_flatMap.mp hmem
      obtain ⟨rfl, hne, hv⟩ := visibilityUpdated_mem_repoInnerChanges.mp hin
      simp only [ho, hn, Option.getD_some] at hne hv
      exact ⟨hne, hv⟩
  · rintro ⟨hne, rfl⟩
    right
    apply List.mem_flatMap.mpr
    refine ⟨r, ?_, ?_⟩
    · apply List.mem_filter.mpr
      refine ⟨h.mem_iff.mpr (mem_keysBy_of_lookupBy hn), ?_⟩
      exact List.elem_iff.mpr (mem_keysBy_of_lookupBy ho)
    · apply visibilityUpdated_mem_repoInnerChanges.mpr
      rw [ho, hn]
      exact ⟨rfl, hne, rfl⟩

/-- Witness for the amended C3 at a concrete pair of repository lists. -/
theorem visibility_updated_iff_witness :
    RepositoryChange.VisibilityUpdated "r1" Visibility.public ∈
      repositoriesDiff [{ name := "r1", visibility := none }]
        [{ name := "r1", visibility := some Visibility.public }]
        (fun l => l) :=
  (visibility_updated_iff _ _ _ isIterOrder_id "r1"
      { name := "r1", visibility := none }
      { name := "r1", visibility := some Visibility.public }
      (by decide) (by decide) Visibility.public).mpr
    ⟨by decide, rfl⟩

/-! ### Claim C10: duplicate keys collapse to the last occurrence -/

theorem lookupBy_eq_none_of_not_mem_keysBy {f : α → String} {l : List α}
    {k : String} (h : k ∉ keysBy f l) : lookupBy f l k = none := by
  cases hl : lookupBy f l k with
  | none => rfl
  | some a => exact absurd (mem_keysBy_of_lookupBy hl) h

theorem exists_lookupBy_of_mem_keysBy {f : α → String} {l : List α}
    {k : String} (h : k ∈ keysBy f l) :
    ∃ a, lookupBy f l k = some a ∧ f a = k := by
  obtain ⟨a, ha⟩ := lookupBy_isSome_of_mem_keysBy h
  exact ⟨a, ha, lookupBy_name ha⟩

/-- A last-wins lookup at a cons: the tail of the list takes precedence
over the head. -/
theorem lookupBy_cons {f : α → String} (a : α) (l : List α) (k : String) :
    lookupBy f (a :: l) k =
      (lookupBy f l k).or (if f a = k then some a else none) := by
  unfold lookupBy
  rw [List.reverse_cons, List.find?_append]
  congr 1
  by_cases h : f a = k
  · simp [List.find?, beq_iff_eq, h]
  · have hb : (f a == k) = false := beq_eq_false_iff_ne.mpr h
    simp [List.find?, hb, h]

/-- Looking up in the map rebuilt from a key list: the lookup succeeds
exactly on the listed keys and agrees with the original map there. -/
theorem lookupBy_filterMap_keys {f : α → String} {l : List α} (k : String) :
    ∀ ks : List String, (∀ k' ∈ ks, ∃ a, lookupBy f l k' = some a ∧ f a = k') →
      lookupBy f (ks.filterMap (lookupBy f l)) k =
        if k ∈ ks then lookupBy f l k else none := by
  intro ks
  induction ks with
  | nil => intro _; simp [lookupBy]
  | cons k' ks ih =>
    intro hks
    obtain ⟨a, ha, hfa⟩ := hks k' (List.mem_cons_self k' ks)
    have hrest := ih (fun x hx => hks x (List.mem_cons_of_mem k' hx))
    have hstep : (k' :: ks).filterMap (lookupBy f l) =
        a :: ks.filterMap (lookupBy f l) := by
      simp [List.filterMap_cons, ha]
    rw [hstep, lookupBy_cons, hrest]
    by_cases hk : k ∈ ks
    · obtain ⟨b, hb, _⟩ := hks k (List.mem_cons_of_mem k' hk)
      rw [if_pos hk, hb]
      simp [List.mem_cons, hk, hb]
    · rw [if_neg hk]
      by_cases hkk : k = k'
      · subst hkk
        simp [hfa, ha, List.mem_cons]
      · have hne : ¬ f a = k := by
          rw [hfa]
          exact fun hcon => hkk hcon.symm
        simp [hne, List.mem_cons, hk, hkk]

/-- Collapsing a keyed list to the last record per key preserves the key
set. -/
theorem keysBy_collapseBy (f : α → String) (l : List α) :
    keysBy f (collapseBy f l) = keysBy f l := by
  have hmap : ∀ ks : List String,
      (∀ k ∈ ks, ∃ a, lookupBy f l k = some a ∧ f a = k) →
      (ks.filterMap (lookupBy f l)).map f = ks := by
    intro ks
    induction ks with
    | nil => intro _; rfl
    | cons k ks ih =>
      intro hks
      obtain ⟨a, ha, hfa⟩ := hks k (List.mem_cons_self k ks)
      rw [List.filterMap_cons, ha]
      simp only [List.map_cons, hfa]
      rw [ih (fun x hx => hks x (List.mem_cons_of_mem k hx))]
  have h1 : (collapseBy f l).map f = keysBy f l :=
    hmap _ (fun k hk => exists_lookupBy_of_mem_keysBy hk)
  calc keysBy f (collapseBy f l) = ((collapseBy f l).map f).dedup := rfl
    _ = (keysBy f l).dedup := by rw [h1]
    _ = keysBy f l := List.dedup_eq_self.mpr (List.nodup_dedup _)

/-- Collapsing a keyed list to the last record per key preserves all
lookups. -/
theorem lookupBy_collapseBy (f : α → String) (l : List α) (k : String) :
    lookupBy f (collapseBy f l) k = lookupBy f l k := by
  unfold collapseBy
  rw [lookupBy_filterMap_keys k (keysBy f l)
    (fun k' hk' => exists_lookupBy_of_mem_keysBy hk')]
  by_cases hk : k ∈ keysBy f l
  · rw [if_pos hk]
  · rw [if_neg hk, lookupBy_eq_none_of_not_mem_keysBy hk]

/-- Claim C10: duplicate keys collapse to the last occurrence.  Both
`Directory::diff` and `State::repositories_diff` key their inputs by name
with last-wins maps, so replacing each input list by the sublist that
keeps only the last record per name (`collapseBy`) leaves the diff output
unchanged, for every iteration order: an earlier duplicate never
participates in the comparison and never produces a change of its own. -/
theorem duplicate_keys_last_wins (old new : Directory)
    (ro rn : List Repository) (σ : List String → List String) :
    Directory.diff
        ⟨collapseBy Team.name old.teams, collapseBy User.full_name old.users⟩
        ⟨collapseBy Team.name new.teams, collapseBy User.full_name new.users⟩
        σ =
      Directory.diff old new σ ∧
    repositoriesDiff (collapseBy Repository.name ro)
        (collapseBy Repository.name rn) σ =
      repositoriesDiff ro rn σ := by
  constructor
  · unfold Directory.diff
    simp only [keysBy_collapseBy, lookupBy_collapseBy]
  · unfold repositoriesDiff
    simp only [keysBy_collapseBy, lookupBy_collapseBy]

/-! ### Claim C5: org-admin folding (state.rs, `State::new_from_config`,
lines 86-97) -/

/-- The org-admin folding pass applied to one team by
`State::new_from_config`: members that are org admins are appended to the
maintainers and removed from the members. -/
def foldTeamOrgAdmins (org_admins : List String) (t : Team) : Team :=
  let org_admins_members := t.members.filter (fun u => org_admins.contains u)
  { t with
    maintainers := t.maintainers ++ org_admins_members,
    members := t.members.filter (fun u => !org_admins_members.contains u) }

/-- The org-admin folding pass applied by `State::new_from_config` to
every team of the configured directory. -/
def foldDirectoryOrgAdmins (org_admins : List String) (d : Directory) :
    Directory :=
  { d with teams := d.teams.map (foldTeamOrgAdmins org_admins) }

/-- Claim C5: org-admin folding invariant.  For every team of a directory
that went through the folding pass of `State::new_from_config`: no member
is an org admin; every org admin on the team's roster is a maintainer; and
the team comes from a configured team whose admin members were all moved
into the maintainers list. -/
theorem org_admin_folding (org_admins : List String) (d : Directory)
    (t' : Team) (ht' : t' ∈ (foldDirectoryOrgAdmins org_admins d).teams) :
    (∀ u ∈ t'.members, u ∉ org_admins) ∧
    (∀ u ∈ org_admins, u ∈ t'.maintainers ∨ u ∈ t'.members →
      u ∈ t'.maintainers) ∧
    (∃ t ∈ d.teams, t' = foldTeamOrgAdmins org_admins t ∧
      ∀ u ∈ t.members, u ∈ org_admins → u ∈ t'.maintainers) := by
  obtain ⟨t, ht, rfl⟩ := List.mem_map.mp ht'
  have hmembers : ∀ u ∈ (foldTeamOrgAdmins org_admins t).members,
      u ∉ org_admins := by
    intro u hu hadmin
    unfold foldTeamOrgAdmins at hu
    simp only [List.mem_filter] at hu
    obtain ⟨humem, hnc⟩ := hu
    have hin : u ∈ t.members.filter (fun u => org_admins.contains u) :=
      List.mem_filter.mpr ⟨humem, List.elem_iff.mpr hadmin⟩
    have hcu : (t.members.filter (fun u => org_admins.contains u)).contains u
        = true := List.elem_iff.mpr hin
    rw [hcu] at hnc
    simp at hnc
  refine ⟨hmembers, ?_, ?_⟩
  · intro u _ hro
    rcases hro with hm | hm
    · exact hm
    · exact absurd ‹u ∈ org_admins› (hmembers u hm)
  · refine ⟨t, ht, rfl, ?_⟩
    intro u humem hadmin
    unfold foldTeamOrgAdmins
    simp only [List.mem_append]
    right
    exact List.mem_filter.mpr ⟨humem, List.elem_iff.mpr hadmin⟩

/-- Scenario S3 of the spec: org admins. -/
def s3Admins : List String := ["u2"]

/-- Scenario S3 of the spec: configured directory. -/
def s3Dir : Directory :=
  { teams := [{ name := "t1", maintainers := ["m"], members := ["u1", "u2"] }] }

/-- Scenario S3 of the spec: team `t1` after org-admin folding. -/
def s3Folded : Team :=
  { name := "t1", maintainers := ["m", "u2"], members := ["u1"] }

/-- Witness for C5 at the spec's scenario S3: team `t1` with members
`["u1", "u2"]` and org admins `["u2"]`. -/
theorem org_admin_folding_witness :
    (∀ u ∈ s3Folded.members, u ∉ s3Admins) ∧
    (∀ u ∈ s3Admins, u ∈ s3Folded.maintainers ∨ u ∈ s3Folded.members →
      u ∈ s3Folded.maintainers) ∧
    (∃ t ∈ s3Dir.teams, s3Folded = foldTeamOrgAdmins s3Admins t ∧
      ∀ u ∈ t.members, u ∈ s3Admins → u ∈ s3Folded.maintainers) :=
  org_admin_folding s3Admins s3Dir s3Folded (by decide)

/-! ### Claim C6: collaborator versus team role validation
(state.rs, `State::validate`, lines 266-350) -/

/-- Get the team identified by the team name provided
(directory/mod.rs, `Directory::get_team`): first match in the list. -/
def Directory.get_team (d : Directory) (team_name : String) : Option Team :=
  d.teams.find? (fun t => t.name == team_name)

/-- One aggregated error produced by the collaborator check of
`State::validate` ("repo[id]: collaborator u already has hr access from
team tn"), kept structured rather than formatted. -/
structure CollabError where
  repo_id : String
  user_name : String
  team_name : String
  role : Role
deriving DecidableEq, Repr

/-- One iteration of the `get_highest_team_role` closure of
`State::validate` (state.rs lines 273-287): keep the entry whose role is
strictly greater than the best seen so far, among team entries whose team
exists in the directory and lists the user. -/
def getHighestStep (d : Directory) (user_name : String)
    (acc : Option (String × Role)) (p : String × Role) :
    Option (String × Role) :=
  match d.get_team p.1 with
  | some team =>
    if team.maintainers.contains user_name ||
        team.members.contains user_name then
      match acc with
      | none => some p
      | some (t₀, highest) =>
        if highest < p.2 then some p else some (t₀, highest)
    else acc
  | none => acc

/-- The accumulator loop of the `get_highest_team_role` closure of
`State::validate` (state.rs lines 271-290). -/
def getHighestTeamRoleAux (d : Directory) (user_name : String)
    (entries : List (String × Role)) (acc : Option (String × Role)) :
    Option (String × Role) :=
  entries.foldl (getHighestStep d user_name) acc

/-- The `get_highest_team_role` closure of `State::validate`: highest role
the user already gets from any team of the repository that exists in the
directory and lists the user as maintainer or member. -/
def getHighestTeamRole (d : Directory) (repo : Repository)
    (user_name : String) : Option (String × Role) :=
  getHighestTeamRoleAux d user_name (repo.teams.getD []) none

/-- The collaborator check of `State::validate` for one repository
(state.rs lines 331-343): one error per explicitly-listed collaborator
whose role is strictly below the highest role inherited from a team. -/
def repoCollabErrors (d : Directory) (id : String) (repo : Repository) :
    List CollabError :=
  (repo.collaborators.getD []).filterMap (fun p =>
    match getHighestTeamRole d repo p.1 with
    | some (team_name, highest) =>
      if p.2 < highest then some ⟨id, p.1, team_name, highest⟩ else none
    | none => none)

/-- The collaborator check of `State::validate` over all repositories of a
state, with the repo name (or its index when the name is empty) as the
error id. -/
def State.collaboratorValidationErrors (s : State) : List CollabError :=
  s.repositories.enum.flatMap (fun p =>
    repoCollabErrors s.directory
      (if p.2.name = "" then toString p.1 else p.2.name) p.2)

/-- The roles the user inherits from the repository's team entries:
entries whose team exists in the directory and lists the user as
maintainer or member. -/
def qualifyingTeamRoles (d : Directory) (user_name : String)
    (entries : List (String × Role)) : List Role :=
  entries.filterMap (fun p =>
    match d.get_team p.1 with
    | some team =>
      if team.maintainers.contains user_name ||
          team.members.contains user_name then some p.2 else none
    | none => none)

theorem Role.toNat_inj : ∀ {a b : Role}, a.toNat = b.toNat → a = b := by
  intro a b
  cases a <;> cases b <;> simp [Role.toNat]

theorem Role.le_antisymm {a b : Role} (h1 : a ≤ b) (h2 : b ≤ a) : a = b :=
  Role.toNat_inj (Nat.le_antisymm h1 h2)

theorem Role.le_refl (a : Role) : a ≤ a := Nat.le_refl a.toNat

theorem Role.le_trans {a b c : Role} (h1 : a ≤ b) (h2 : b ≤ c) : a ≤ c :=
  Nat.le_trans h1 h2

theorem Role.le_of_lt {a b : Role} (h : a < b) : a ≤ b := Nat.le_of_lt h

theorem Role.le_of_not_lt {a b : Role} (h : ¬ a < b) : b ≤ a :=
  Nat.le_of_not_lt h

/-- Specification of the accumulator loop of `get_highest_team_role`:
a `none` result means no qualifying team (and an empty accumulator), and a
`some` result carries a role that bounds every qualifying role and either
occurs among them or comes from the accumulator. -/
theorem getHighestTeamRoleAux_spec (d : Directory) (u : String) :
    ∀ (entries : List (String × Role)) (acc : Option (String × Role)),
      (getHighestTeamRoleAux d u entries acc = none ↔
        (acc = none ∧ qualifyingTeamRoles d u entries = [])) ∧
      (∀ tn h, getHighestTeamRoleAux d u entries acc = some (tn, h) →
        (h ∈ qualifyingTeamRoles d u entries ∨ ∃ t₀, acc = some (t₀, h)) ∧
        (∀ r ∈ qualifyingTeamRoles d u entries, r ≤ h) ∧
        (∀ t₀ h₀, acc = some (t₀, h₀) → h₀ ≤ h)) := by
  intro entries
  induction entries with
  | nil =>
    intro acc
    refine ⟨by simp [getHighestTeamRoleAux, qualifyingTeamRoles], ?_⟩
    intro tn h hres
    simp [getHighestTeamRoleAux] at hres
    subst hres
    refine ⟨Or.inr ⟨tn, rfl⟩, by simp [qualifyingTeamRoles], ?_⟩
    intro t₀ h₀ hacc
    simp at hacc
    rw [hacc.2]
    exact Role.le_refl h₀
  | cons p rest ih =>
    intro acc
    obtain ⟨tn₁, r₁⟩ := p
    have hfold : getHighestTeamRoleAux d u ((tn₁, r₁) :: rest) acc =
        getHighestTeamRoleAux d u rest (getHighestStep d u acc (tn₁, r₁)) :=
      rfl
    by_cases hq : ∃ team, d.get_team tn₁ = some team ∧
        (u ∈ team.maintainers ∨ u ∈ team.members)
    · obtain ⟨team, hteam, hcond⟩ := hq
      have hcondb : (team.maintainers.contains u ||
          team.members.contains u) = true := by
        rw [Bool.or_eq_true]
        rcases hcond with hc | hc
        · exact Or.inl (List.elem_iff.mpr hc)
        · exact Or.inr (List.elem_iff.mpr hc)
      have hqual : qualifyingTeamRoles d u ((tn₁, r₁) :: rest) =
          r₁ :: qualifyingTeamRoles d u rest := by
        unfold qualifyingTeamRoles
        rw [List.filterMap_cons]
        simp [hteam, hcond, hcondb]
      cases acc with
      | none =>
        have hstep : getHighestStep d u none (tn₁, r₁) = some (tn₁, r₁) := by
          simp [getHighestStep, hteam, hcond, hcondb]
        rw [hfold, hstep, hqual]
        obtain ⟨ihn, ihs⟩ := ih (some (tn₁, r₁))
        refine ⟨by simp [ihn], ?_⟩
        intro tn h hres
        obtain ⟨hsrc, hbound, haccb⟩ := ihs tn h hres
        have hr₁ : r₁ ≤ h := haccb tn₁ r₁ rfl
        refine ⟨?_, ?_, ?_⟩
        · rcases hsrc with hmem | ⟨t₀, hacc⟩
          · exact Or.inl (List.mem_cons_of_mem _ hmem)
          · injection hacc with hacc
            have : r₁ = h := congrArg Prod.snd hacc
            subst this
            exact Or.inl (List.mem_cons_self _ _)
        · intro r hr
          rcases List.mem_cons.mp hr with rfl | hr
          · exact hr₁
          · exact hbound r hr
        · intro t₀ h₀ hacc
          cases hacc
      | some q =>
        obtain ⟨t₀, h₀⟩ := q
        by_cases hlt : h₀ < r₁
        · have hstep : getHighestStep d u (some (t₀, h₀)) (tn₁, r₁) =
              some (tn₁, r₁) := by
            simp [getHighestStep, hteam, hcond, hcondb, hlt]
          rw [hfold, hstep, hqual]
          obtain ⟨ihn, ihs⟩ := ih (some (tn₁, r₁))
          refine ⟨by simp [ihn], ?_⟩
          intro tn h hres
          obtain ⟨hsrc, hbound, haccb⟩ := ihs tn h hres
          have hr₁ : r₁ ≤ h := haccb tn₁ r₁ rfl
          refine ⟨?_, ?_, ?_⟩
          · rcases hsrc with hmem | ⟨t₁, hacc⟩
            · exact Or.inl (List.mem_cons_of_mem _ hmem)
            · injection hacc with hacc
              have : r₁ = h := congrArg Prod.snd hacc
              subst this
              exact Or.inl (List.mem_cons_self _ _)
          · intro r hr
            rcases List.mem_cons.mp hr with rfl | hr
            · exact hr₁
            · exact hbound r hr
          · intro t₁ h₁ hacc
            injection hacc with hacc
            have : h₀ = h₁ := congrArg Prod.snd hacc
            subst this
            exact Role.le_trans (Role.le_of_lt hlt) hr₁
        · have hstep : getHighestStep d u (some (t₀, h₀)) (tn₁, r₁) =
              some (t₀, h₀) := by
            simp [getHighestStep, hteam, hcond, hcondb, hlt]
          rw [hfold, hstep, hqual]
          obtain ⟨ihn, ihs⟩ := ih (some (t₀, h₀))
          refine ⟨by simp [ihn], ?_⟩
          intro tn h hres
          obtain ⟨hsrc, hbound, haccb⟩ := ihs tn h hres
          have hh₀ : h₀ ≤ h := haccb t₀ h₀ rfl
          have hr₁ : r₁ ≤ h := Role.le_trans (Role.le_of_not_lt hlt) hh₀
          refine ⟨?_, ?_, ?_⟩
          · rcases hsrc with hmem | ⟨t₁, hacc⟩
            · exact Or.inl (List.mem_cons_of_mem _ hmem)
            · exact Or.inr ⟨t₁, hacc⟩
          · intro r hr
            rcases List.mem_cons.mp hr with rfl | hr
            · exact hr₁
            · exact hbound r hr
          · intro t₁ h₁ hacc
            injection hacc with hacc
            have : h₀ = h₁ := congrArg Prod.snd hacc
            subst this
            exact hh₀
    · have hnc : ∀ team, d.get_team tn₁ = some team →
          ¬ (u ∈ team.maintainers ∨ u ∈ team.members) :=
        fun team hteam hcon => hq ⟨team, hteam, hcon⟩
      have hcondb : ∀ team, d.get_team tn₁ = some team →
          (team.maintainers.contains u || team.members.contains u) = false := by
        intro team hteam
        by_contra hcon
        have htrue : (team.maintainers.contains u ||
            team.members.contains u) = true := by
          cases hcc : (team.maintainers.contains u ||
              team.members.contains u) with
          | true => rfl
          | false => exact absurd hcc hcon
        rw [Bool.or_eq_true] at htrue
        rcases htrue with hc | hc
        · exact hnc team hteam (Or.inl (List.elem_iff.mp hc))
        · exact hnc team hteam (Or.inr (List.elem_iff.mp hc))
      have hstep : getHighestStep d u acc (tn₁, r₁) = acc := by
        unfold getHighestStep
        cases hteam : d.get_team tn₁ with
        | none => simp
        | some team => simp [hnc team hteam]
      have hqual : qualifyingTeamRoles d u ((tn₁, r₁) :: rest) =
          qualifyingTeamRoles d u rest := by
        unfold qualifyingTeamRoles
        rw [List.filterMap_cons]
        cases hteam : d.get_team tn₁ with
        | none => simp
        | some team => simp [hteam, hnc team hteam]
      rw [hfold, hstep, hqual]
      exact ih acc

/-- In an association list with duplicate-free keys, a key determines its
value. -/
theorem assoc_nodup_key_eq {l : List (String × Role)}
    (hnd : (l.map Prod.fst).Nodup) {u : String} {a b : Role}
    (ha : (u, a) ∈ l) (hb : (u, b) ∈ l) : a = b := by
  induction l with
  | nil => cases ha
  | cons p rest ih =>
    rw [List.map_cons, List.nodup_cons] at hnd
    rcases List.mem_cons.mp ha with rfl | ha' <;>
      rcases List.mem_cons.mp hb with hbeq | hb'
    · injection hbeq with h1 h2
      exact h2.symm
    · exact absurd (List.mem_map.mpr ⟨(u, b), hb', rfl⟩) hnd.1
    · rw [← hbeq] at hnd
      exact absurd (List.mem_map.mpr ⟨(u, a), ha', rfl⟩) hnd.1
    · exact ih hnd.2 ha' hb'

/-- Claim C6: collaborator-versus-team-role validation.  For a repository
collaborator `(u, role)` (with the map's keys duplicate-free, as in a
`HashMap`), the collaborator check of `State::validate` reports an error
for `u` if and only if `u` inherits some role from a team of the
repository and the highest inherited role is strictly greater than `role`;
moreover every reported error names exactly that highest inherited
role. -/
theorem collaborator_team_role_validation (d : Directory) (id : String)
    (repo : Repository) (u : String) (role : Role)
    (hmem : (u, role) ∈ repo.collaborators.getD [])
    (hnd : ((repo.collaborators.getD []).map Prod.fst).Nodup) :
    ((∃ tn h, CollabError.mk id u tn h ∈ repoCollabErrors d id repo) ↔
      (∃ h, h ∈ qualifyingTeamRoles d u (repo.teams.getD []) ∧
        (∀ r ∈ qualifyingTeamRoles d u (repo.teams.getD []), r ≤ h) ∧
        role < h)) ∧
    (∀ tn h, CollabError.mk id u tn h ∈ repoCollabErrors d id repo →
      h ∈ qualifyingTeamRoles d u (repo.teams.getD []) ∧
      (∀ r ∈ qualifyingTeamRoles d u (repo.teams.getD []), r ≤ h) ∧
      role < h) := by
  have hspec := getHighestTeamRoleAux_spec d u (repo.teams.getD []) none
  have herr : ∀ tn h, CollabError.mk id u tn h ∈ repoCollabErrors d id repo →
      h ∈ qualifyingTeamRoles d u (repo.teams.getD []) ∧
      (∀ r ∈ qualifyingTeamRoles d u (repo.teams.getD []), r ≤ h) ∧
      role < h := by
    intro tn h hin
    obtain ⟨p, hp, hfp⟩ := List.mem_filterMap.mp hin
    obtain ⟨pu, pr⟩ := p
    revert hfp
    cases hres : getHighestTeamRole d repo pu with
    | none => intro hfp; cases hfp
    | some q =>
      obtain ⟨tn', h'⟩ := q
      intro hfp
      change (if (pu, pr).2 < h'
          then some (CollabError.mk id (pu, pr).1 tn' h') else none) =
          some (CollabError.mk id u tn h) at hfp
      by_cases hlt : (pu, pr).2 < h'
      · rw [if_pos hlt] at hfp
        injection hfp with hfp
        simp only [CollabError.mk.injEq] at hfp
        obtain ⟨-, h2, h3, h4⟩ := hfp
        have hpu : pu = u := h2
        subst hpu
        subst h3
        subst h4
        have hpr : pr = role := assoc_nodup_key_eq hnd hp hmem
        subst hpr
        obtain ⟨hsrc, hbound, _⟩ := hspec.2 _ _ hres
        rcases hsrc with hmemq | ⟨t₀, hacc⟩
        · exact ⟨hmemq, hbound, hlt⟩
        · cases hacc
      · rw [if_neg hlt] at hfp
        cases hfp
  refine ⟨⟨?_, ?_⟩, herr⟩
  · rintro ⟨tn, h, hin⟩
    exact ⟨h, herr tn h hin⟩
  · rintro ⟨h, hq, hmax, hlt⟩
    cases hres : getHighestTeamRole d repo u with
    | none =>
      obtain ⟨_, hqnil⟩ := hspec.1.mp hres
      rw [hqnil] at hq
      cases hq
    | some q =>
      obtain ⟨tn', h'⟩ := q
      obtain ⟨hsrc, hbound, _⟩ := hspec.2 tn' h' hres
      have hh' : h' = h := by
        rcases hsrc with hmemq | ⟨t₀, hacc⟩
        · exact Role.le_antisymm (hmax h' hmemq) (hbound h hq)
        · cases hacc
      subst hh'
      refine ⟨tn', h', List.mem_filterMap.mpr ⟨(u, role), hmem, ?_⟩⟩
      simp [hres, hlt]

/-- Scenario S5 of the spec: directory with team `t1` whose member is
`u1`. -/
def s5Dir : Directory :=
  { teams := [{ name := "t1", maintainers := ["m"], members := ["u1"] }] }

/-- Scenario S5 of the spec: repo `r1` with team `t1` at `write` and
explicit collaborator `u1` at `read`. -/
def s5Repo : Repository :=
  { name := "r1", collaborators := some [("u1", Role.read)],
    teams := some [("t1", Role.write)] }

/-- Witness for C6 at the spec's scenario S5: the validation error for
`u1` exists and names the inherited role `write`. -/
theorem collaborator_team_role_validation_witness :
    ((∃ tn h, CollabError.mk "r1" "u1" tn h ∈ repoCollabErrors s5Dir "r1" s5Repo) ↔
      (∃ h, h ∈ qualifyingTeamRoles s5Dir "u1" (s5Repo.teams.getD []) ∧
        (∀ r ∈ qualifyingTeamRoles s5Dir "u1" (s5Repo.teams.getD []), r ≤ h) ∧
        Role.read < h)) ∧
    (∀ tn h, CollabError.mk "r1" "u1" tn h ∈ repoCollabErrors s5Dir "r1" s5Repo →
      h ∈ qualifyingTeamRoles s5Dir "u1" (s5Repo.teams.getD []) ∧
      (∀ r ∈ qualifyingTeamRoles s5Dir "u1" (s5Repo.teams.getD []), r ≤ h) ∧
      Role.read < h) :=
  collaborator_team_role_validation s5Dir "r1" s5Repo "u1" Role.read
    (by decide) (by decide)

/-! ### Claim C8: composite-team expansion
(directory/legacy.rs, `sheriff::Cfg::process_composite_teams` and
`sheriff::Cfg::remove_duplicates`) -/

/-- Team configuration in the legacy sheriff format (legacy.rs
`sheriff::Team`). -/
structure SheriffTeam where
  name : String
  maintainers : Option (List String) := none
  members : Option (List String) := none
  formation : Option (List String) := none
deriving DecidableEq, Repr

/-- Sheriff configuration (legacy.rs `sheriff::Cfg`). -/
structure SheriffCfg where
  teams : List SheriffTeam := []
deriving DecidableEq, Repr

/-- Folding one referenced team into the referring team (legacy.rs lines
102-117): `extend_from_slice` on an existing list, `clone_from` when the
referring team's list is absent. -/
def foldFormationSource (team source_team : SheriffTeam) : SheriffTeam :=
  { team with
    maintainers :=
      match team.maintainers with
      | some maintainers => some (maintainers ++ source_team.maintainers.getD [])
      | none => source_team.maintainers,
    members :=
      match team.members with
      | some members => some (members ++ source_team.members.getD [])
      | none => source_team.members }

/-- `process_composite_teams` for one team (legacy.rs lines 99-119): each
name in `formation` is looked up (first match) in the pre-pass snapshot of
the team list and folded in; unknown names are skipped. -/
def processTeamFormation (teams_copy : List SheriffTeam)
    (team : SheriffTeam) : SheriffTeam :=
  (team.formation.getD []).foldl
    (fun t team_name =>
      match teams_copy.find? (fun s => s.name == team_name) with
      | some source_team => foldFormationSource t source_team
      | none => t)
    team

/-- `Cfg::process_composite_teams` (legacy.rs lines 96-121): every team is
expanded against the snapshot taken before the pass. -/
def processCompositeTeams (cfg : SheriffCfg) : SheriffCfg :=
  { cfg with teams := cfg.teams.map (processTeamFormation cfg.teams) }

/-- Rust's `String` ordering used by `Vec::sort`: lexicographic on the
character sequence (UTF-8 byte order coincides with code-point order). -/
def charListLe : List Char → List Char → Bool
  | [], _ => true
  | _ :: _, [] => false
  | a :: as, b :: bs =>
    if a < b then true else if b < a then false else charListLe as bs

/-- String comparison backing the sort. -/
def strLe (a b : String) : Bool := charListLe a.data b.data

/-- Insertion into a sorted list, before equal elements. -/
def insertSorted (a : String) : List String → List String
  | [] => [a]
  | b :: rest => if strLe a b then a :: b :: rest else b :: insertSorted a rest

/-- A sorting function agreeing with Rust's `Vec::sort` on strings: the
comparison is total and equal strings are indistinguishable, so every
correct sort produces the same list. -/
def sortStrings : List String → List String
  | [] => []
  | a :: rest => insertSorted a (sortStrings rest)

/-- `Vec::dedup`: remove consecutive repeated elements. -/
def dedupAdjacent : List String → List String
  | [] => []
  | [a] => [a]
  | a :: b :: rest =>
    if a = b then dedupAdjacent (b :: rest) else a :: dedupAdjacent (b :: rest)

/-- `remove_duplicates` for one team (legacy.rs lines 125-137): sort then
adjacent-dedup each of the two lists, when present. -/
def removeTeamDuplicates (team : SheriffTeam) : SheriffTeam :=
  { team with
    maintainers := team.maintainers.map (fun l => dedupAdjacent (sortStrings l)),
    members := team.members.map (fun l => dedupAdjacent (sortStrings l)) }

/-- `Cfg::remove_duplicates` (legacy.rs lines 124-138). -/
def removeDuplicates (cfg : SheriffCfg) : SheriffCfg :=
  { cfg with teams := cfg.teams.map removeTeamDuplicates }

theorem mem_insertSorted {x a : String} :
    ∀ l, x ∈ insertSorted a l ↔ x = a ∨ x ∈ l := by
  intro l
  induction l with
  | nil => simp [insertSorted]
  | cons b rest ih =>
    by_cases h : strLe a b = true
    · simp [insertSorted, h, List.mem_cons]
    · simp only [insertSorted, if_neg h, List.mem_cons, ih]
      tauto

theorem mem_sortStrings {x : String} : ∀ l, x ∈ sortStrings l ↔ x ∈ l := by
  intro l
  induction l with
  | nil => simp [sortStrings]
  | cons a rest ih =>
    simp [sortStrings, mem_insertSorted, ih, List.mem_cons]

theorem mem_dedupAdjacent {x : String} :
    ∀ l, x ∈ dedupAdjacent l ↔ x ∈ l := by
  intro l
  induction l with
  | nil => simp [dedupAdjacent]
  | cons a rest ih =>
    cases rest with
    | nil => simp [dedupAdjacent]
    | cons b rest' =>
      by_cases hab : a = b
      · subst hab
        have hd : dedupAdjacent (a :: a :: rest') = dedupAdjacent (a :: rest') := by
          simp [dedupAdjacent]
        rw [hd, ih]
        simp only [List.mem_cons]
        tauto
      · simp only [dedupAdjacent, if_neg hab, List.mem_cons, ih]

/-- Sorting plus adjacent dedup of an optional list preserves
membership. -/
theorem mem_optionSortDedup {u : String} (o : Option (List String)) :
    u ∈ (o.map (fun l => dedupAdjacent (sortStrings l))).getD [] ↔
      u ∈ o.getD [] := by
  cases o with
  | none => simp
  | some l => simp [mem_dedupAdjacent, mem_sortStrings]

theorem mem_foldFormationSource_maintainers {u : String}
    (t s : SheriffTeam) :
    u ∈ (foldFormationSource t s).maintainers.getD [] ↔
      u ∈ t.maintainers.getD [] ∨ u ∈ s.maintainers.getD [] := by
  cases htm : t.maintainers <;> cases hsm : s.maintainers <;>
    simp [foldFormationSource, htm, hsm]

theorem mem_foldFormationSource_members {u : String} (t s : SheriffTeam) :
    u ∈ (foldFormationSource t s).members.getD [] ↔
      u ∈ t.members.getD [] ∨ u ∈ s.members.getD [] := by
  cases htm : t.members <;> cases hsm : s.members <;>
    simp [foldFormationSource, htm, hsm]

/-- Membership in the maintainers accumulated by the formation fold. -/
theorem mem_formationFold_maintainers {u : String}
    (copy : List SheriffTeam) :
    ∀ (fs : List String) (t : SheriffTeam),
      u ∈ ((fs.foldl
          (fun t team_name =>
            match copy.find? (fun s => s.name == team_name) with
            | some source_team => foldFormationSource t source_team
            | none => t) t).maintainers.getD []) ↔
        (u ∈ t.maintainers.getD [] ∨ ∃ n ∈ fs, ∃ src,
          copy.find? (fun s => s.name == n) = some src ∧
            u ∈ src.maintainers.getD []) := by
  intro fs
  induction fs with
  | nil => simp
  | cons n fs ih =>
    intro t
    rw [List.foldl_cons]
    cases hfind : copy.find? (fun s => s.name == n) with
    | none =>
      rw [ih t]
      constructor
      · rintro (h | ⟨m, hm, src, hsrc, hu⟩)
        · exact Or.inl h
        · exact Or.inr ⟨m, List.mem_cons_of_mem n hm, src, hsrc, hu⟩
      · rintro (h | ⟨m, hm, src, hsrc, hu⟩)
        · exact Or.inl h
        · rcases List.mem_cons.mp hm with rfl | hm
          · rw [hfind] at hsrc
            cases hsrc
          · exact Or.inr ⟨m, hm, src, hsrc, hu⟩
    | some src₀ =>
      rw [ih (foldFormationSource t src₀)]
      rw [mem_foldFormationSource_maintainers]
      constructor
      · rintro ((h | h) | ⟨m, hm, src, hsrc, hu⟩)
        · exact Or.inl h
        · exact Or.inr ⟨n, List.mem_cons_self n fs, src₀, hfind, h⟩
        · exact Or.inr ⟨m, List.mem_cons_of_mem n hm, src, hsrc, hu⟩
      · rintro (h | ⟨m, hm, src, hsrc, hu⟩)
        · exact Or.inl (Or.inl h)
        · rcases List.mem_cons.mp hm with rfl | hm
          · rw [hfind] at hsrc
            injection hsrc with hsrc
            subst hsrc
            exact Or.inl (Or.inr hu)
          · exact Or.inr ⟨m, hm, src, hsrc, hu⟩

/-- Membership in the members accumulated by the formation fold. -/
theorem mem_formationFold_members {u : String} (copy : List SheriffTeam) :
    ∀ (fs : List String) (t : SheriffTeam),
      u ∈ ((fs.foldl
          (fun t team_name =>
            match copy.find? (fun s => s.name == team_name) with
            | some source_team => foldFormationSource t source_team
            | none => t) t).members.getD []) ↔
        (u ∈ t.members.getD [] ∨ ∃ n ∈ fs, ∃ src,
          copy.find? (fun s => s.name == n) = some src ∧
            u ∈ src.members.getD []) := by
  intro fs
  induction fs with
  | nil => simp
  | cons n fs ih =>
    intro t
    rw [List.foldl_cons]
    cases hfind : copy.find? (fun s => s.name == n) with
    | none =>
      rw [ih t]
      constructor
      · rintro (h | ⟨m, hm, src, hsrc, hu⟩)
        · exact Or.inl h
        · exact Or.inr ⟨m, List.mem_cons_of_mem n hm, src, hsrc, hu⟩
      · rintro (h | ⟨m, hm, src, hsrc, hu⟩)
        · exact Or.inl h
        · rcases List.mem_cons.mp hm with rfl | hm
          · rw [hfind] at hsrc
            cases hsrc
          · exact Or.inr ⟨m, hm, src, hsrc, hu⟩
    | some src₀ =>
      rw [ih (foldFormationSource t src₀)]
      rw [mem_foldFormationSource_members]
      constructor
      · rintro ((h | h) | ⟨m, hm, src, hsrc, hu⟩)
        · exact Or.inl h
        · exact Or.inr ⟨n, List.mem_cons_self n fs, src₀, hfind, h⟩
        · exact Or.inr ⟨m, List.mem_cons_of_mem n hm, src, hsrc, hu⟩
      · rintro (h | ⟨m, hm, src, hsrc, hu⟩)
        · exact Or.inl (Or.inl h)
        · rcases List.mem_cons.mp hm with rfl | hm
          · rw [hfind] at hsrc
            injection hsrc with hsrc
            subst hsrc
            exact Or.inl (Or.inr hu)
          · exact Or.inr ⟨m, hm, src, hsrc, hu⟩

/-- Scenario S4 of the spec: the composite-team configuration. -/
def cfgS4 : SheriffCfg :=
  { teams :=
      [{ name := "a", maintainers := some ["m1"], members := some ["x1"] },
       { name := "b", maintainers := some ["m2"], formation := some ["a"] }] }

/-- Scenario S4 of the spec: the expected configuration after the loader's
two post-processing passes. -/
def cfgS4Expected : SheriffCfg :=
  { teams :=
      [{ name := "a", maintainers := some ["m1"], members := some ["x1"] },
       { name := "b", maintainers := some ["m1", "m2"],
         members := some ["x1"], formation := some ["a"] }] }

/-- The formation fold keeps the `formation` field unchanged. -/
theorem processTeamFormation_formation (copy : List SheriffTeam) :
    ∀ (fs : List String) (t : SheriffTeam),
      (fs.foldl
        (fun t team_name =>
          match copy.find? (fun s => s.name == team_name) with
          | some source_team => foldFormationSource t source_team
          | none => t) t).formation = t.formation := by
  intro fs
  induction fs with
  | nil => intro t; rfl
  | cons n fs ih =>
    intro t
    rw [List.foldl_cons]
    cases hfind : copy.find? (fun s => s.name == n) with
    | none => exact ih t
    | some src => rw [ih (foldFormationSource t src)]; rfl

/-- Claim C8: composite-team expansion.  The spec's scenario S4 holds
exactly: team `b` ends with maintainers `["m1", "m2"]` and members
`["x1"]`.  In general the loader pipeline is the per-team composition of
the formation fold and the sort-plus-dedup pass, and after it a user is on
a team's list exactly when they were on the team's own list or on the
corresponding list of some team referenced by `formation` (resolved
against the pre-pass snapshot; duplicates removed by sort + dedup). -/
theorem composite_team_expansion :
    removeDuplicates (processCompositeTeams cfgS4) = cfgS4Expected ∧
    (∀ cfg : SheriffCfg, (removeDuplicates (processCompositeTeams cfg)).teams =
      cfg.teams.map
        (fun team => removeTeamDuplicates (processTeamFormation cfg.teams team))) ∧
    (∀ (cfg : SheriffCfg) (team : SheriffTeam) (u : String),
      (u ∈ (removeTeamDuplicates
            (processTeamFormation cfg.teams team)).maintainers.getD [] ↔
        (u ∈ team.maintainers.getD [] ∨ ∃ n ∈ team.formation.getD [], ∃ src,
          cfg.teams.find? (fun s => s.name == n) = some src ∧
            u ∈ src.maintainers.getD [])) ∧
      (u ∈ (removeTeamDuplicates
            (processTeamFormation cfg.teams team)).members.getD [] ↔
        (u ∈ team.members.getD [] ∨ ∃ n ∈ team.formation.getD [], ∃ src,
          cfg.teams.find? (fun s => s.name == n) = some src ∧
            u ∈ src.members.getD []))) := by
  refine ⟨by decide, ?_, ?_⟩
  · intro cfg
    unfold removeDuplicates processCompositeTeams
    simp [List.map_map]
  · intro cfg team u
    constructor
    · rw [show (removeTeamDuplicates
          (processTeamFormation cfg.teams team)).maintainers =
          (processTeamFormation cfg.teams team).maintainers.map
            (fun l => dedupAdjacent (sortStrings l)) from rfl]
      rw [mem_optionSortDedup]
      exact mem_formationFold_maintainers cfg.teams
        (team.formation.getD []) team
    · rw [show (removeTeamDuplicates
          (processTeamFormation cfg.teams team)).members =
          (processTeamFormation cfg.teams team).members.map
            (fun l => dedupAdjacent (sortStrings l)) from rfl]
      rw [mem_optionSortDedup]
      exact mem_formationFold_members cfg.teams
        (team.formation.getD []) team

/-! ### Claims C4 and C7: the reconcile apply loop
(services/github/mod.rs, `Handler::reconcile`, lines 136-247).

State building is external (it calls the platform); the embedding starts
from the computed change set and abstracts the platform gateway as a
response oracle. -/

/-- A mutating gateway call issued by `Handler::reconcile`, one
constructor per service-trait method invoked by the apply loops. -/
inductive GatewayOp where
  | addTeam (team : Team)
  | removeTeam (team_name : String)
  | addTeamMaintainer (team_name user_name : String)
  | removeTeamMaintainer (team_name user_name : String)
  | addTeamMember (team_name user_name : String)
  | removeTeamMember (team_name user_name : String)
  | addRepository (repo : Repository)
  | addRepositoryTeam (repo_name team_name : String) (role : Role)
  | removeRepositoryTeam (repo_name team_name : String)
  | updateRepositoryTeamRole (repo_name team_name : String) (role : Role)
  | addRepositoryCollaborator (repo_name user_name : String) (role : Role)
  | removeRepositoryInvitation (repo_name : String) (invitation_id : Int)
  | removeRepositoryCollaborator (repo_name user_name : String)
  | updateRepositoryInvitation (repo_name : String) (invitation_id : Int)
      (role : Role)
  | updateRepositoryCollaboratorRole (repo_name user_name : String)
      (role : Role)
  | updateRepositoryVisibility (repo_name : String) (visibility : Visibility)
deriving DecidableEq, Repr

/-- A pending repository invitation as consumed by
`Handler::get_repository_invitation` (mod.rs lines 48-62). -/
structure RepoInvitation where
  invitee : Option String
  id : Int
deriving DecidableEq, Repr

/-- The platform gateway abstracted as a response oracle: each mutating
call either succeeds (`none`) or fails with an error string, and listing
a repository's invitations either returns the list or fails. -/
structure Gateway where
  callResult : GatewayOp → Option String
  listRepositoryInvitations : String → Except String (List RepoInvitation)

/-- `Handler::get_repository_invitation` (mod.rs lines 48-62): the id of
the first pending invitation whose invitee is the given user; a listing
failure propagates. -/
def getRepositoryInvitation (gw : Gateway) (repo_name user_name : String) :
    Except String (Option Int) :=
  (gw.listRepositoryInvitations repo_name).map (fun invs =>
    invs.findSome? (fun i =>
      if i.invitee = some user_name then some i.id else none))

/-- The change held by one `ChangeApplied` record; the Rust code boxes
directory and repository changes behind `DynChange` in one list. -/
inductive AppliedChange where
  | dir (change : DirectoryChange)
  | repo (change : RepositoryChange)
deriving DecidableEq, Repr

/-- One `ChangeApplied` record (services/mod.rs): the change and the
error, if any, from applying it.  The wall-clock `applied_at` timestamp is
not modelled. -/
structure ChangeApplied where
  change : AppliedChange
  error : Option String
deriving DecidableEq, Repr

/-- Gateway call for one directory change (mod.rs lines 156-174); `none`
for the user-profile changes, which the loop skips with `continue`. -/
def directoryChangeOp : DirectoryChange → Option GatewayOp
  | .TeamAdded team => some (.addTeam team)
  | .TeamRemoved team_name => some (.removeTeam team_name)
  | .TeamMaintainerAdded t u => some (.addTeamMaintainer t u)
  | .TeamMaintainerRemoved t u => some (.removeTeamMaintainer t u)
  | .TeamMemberAdded t u => some (.addTeamMember t u)
  | .TeamMemberRemoved t u => some (.removeTeamMember t u)
  | .UserAdded _ => none
  | .UserRemoved _ => none
  | .UserUpdated _ => none

/-- The directory phase of `Handler::reconcile` (mod.rs lines 155-180):
apply each change and record it with the returned error; user changes
produce no record and no call; no failure aborts the loop.  Returns the
records and the trace of calls issued. -/
def applyDirectoryChanges (gw : Gateway) :
    List DirectoryChange → List ChangeApplied × List GatewayOp
  | [] => ([], [])
  | change :: rest =>
    match directoryChangeOp change with
    | none => applyDirectoryChanges gw rest
    | some op =>
      (⟨.dir change, gw.callResult op⟩ :: (applyDirectoryChanges gw rest).1,
       op :: (applyDirectoryChanges gw rest).2)

/-- The cascade-suppression scan of `Handler::reconcile` (mod.rs lines
189-201): a repository-level `TeamRemoved(repo, team)` is skipped when
some record in `changes_applied` holds `DirectoryChange::TeamRemoved(team)`
— the record's error field is not consulted. -/
def suppressedTeamRemoval (applied : List ChangeApplied) :
    RepositoryChange → Bool
  | .TeamRemoved _ team_name =>
    decide (AppliedChange.dir (DirectoryChange.TeamRemoved team_name) ∈
      applied.map ChangeApplied.change)
  | _ => false

/-- Gateway call for one repository change (mod.rs lines 184-237).  For
`CollaboratorRemoved` and `CollaboratorRoleUpdated` the pending
invitations are consulted first, and a listing failure propagates (the
`?` operator on `get_repository_invitation`). -/
def repositoryChangeOp (gw : Gateway) :
    RepositoryChange → Except String GatewayOp
  | .RepositoryAdded repo => .ok (.addRepository repo)
  | .TeamAdded r t role => .ok (.addRepositoryTeam r t role)
  | .TeamRemoved r t => .ok (.removeRepositoryTeam r t)
  | .TeamRoleUpdated r t role => .ok (.updateRepositoryTeamRole r t role)
  | .CollaboratorAdded r u role => .ok (.addRepositoryCollaborator r u role)
  | .CollaboratorRemoved r u =>
    (getRepositoryInvitation gw r u).map (fun inv =>
      match inv with
      | some invitation_id => .removeRepositoryInvitation r invitation_id
      | none => .removeRepositoryCollaborator r u)
  | .CollaboratorRoleUpdated r u role =>
    (getRepositoryInvitation gw r u).map (fun inv =>
      match inv with
      | some invitation_id => .updateRepositoryInvitation r invitation_id role
      | none => .updateRepositoryCollaboratorRole r u role)
  | .VisibilityUpdated r v => .ok (.updateRepositoryVisibility r v)

/-- The repositories phase of `Handler::reconcile` (mod.rs lines
183-244): `applied` is the `changes_applied` list accumulated so far
(directory records included).  A suppressed team removal gets no call and
no record; an invitation-listing failure aborts the whole reconciliation;
any other change is applied and recorded, its failure notwithstanding. -/
def applyRepositoryChanges (gw : Gateway) (applied : List ChangeApplied) :
    List RepositoryChange →
      Except String (List ChangeApplied × List GatewayOp)
  | [] => .ok (applied, [])
  | change :: rest =>
    if suppressedTeamRemoval applied change then
      applyRepositoryChanges gw applied rest
    else
      match repositoryChangeOp gw change with
      | .error e => .error e
      | .ok op =>
        (applyRepositoryChanges gw
          (applied ++ [⟨.repo change, gw.callResult op⟩]) rest).map
          (fun p => (p.1, op :: p.2))

/-- The apply part of `Handler::reconcile` (mod.rs lines 150-246):
directory changes first, then repository changes against the accumulated
records.  Returns all records and the full call trace. -/
def reconcileApply (gw : Gateway) (changes : Changes) :
    Except String (List ChangeApplied × List GatewayOp) :=
  (applyRepositoryChanges gw (applyDirectoryChanges gw changes.directory).1
    changes.repositories).map
    (fun p => (p.1, (applyDirectoryChanges gw changes.directory).2 ++ p.2))

/-- Gateway oracle for the C4 counterexample: `remove_team("t1")` fails,
everything else succeeds. -/
def gwRemoveTeamFails : Gateway :=
  { callResult := fun op =>
      if op = GatewayOp.removeTeam "t1" then some "remove team failed"
      else none,
    listRepositoryInvitations := fun _ => .ok [] }

/-- Change set for the C4 counterexample. -/
def changesCascade : Changes :=
  { directory := [DirectoryChange.TeamRemoved "t1"],
    repositories := [RepositoryChange.TeamRemoved "r1" "t1"] }

/-- Counterexample for claim C4: the suppression scan ignores the error
field.  Here `remove_team("t1")` fails (its record carries an error), yet
the repository-level `TeamRemoved("r1","t1")` is still skipped: the trace
holds only the failed `remove_team` call and no
`remove_repository_team("r1","t1")` call is ever issued, contradicting
"skipped if and only if applied successfully". -/
theorem cascade_suppression_ignores_errors_cex :
    reconcileApply gwRemoveTeamFails changesCascade =
      Except.ok
        ([⟨AppliedChange.dir (DirectoryChange.TeamRemoved "t1"),
            some "remove team failed"⟩],
         [GatewayOp.removeTeam "t1"]) ∧
    (GatewayOp.removeRepositoryTeam "r1" "t1" ∉
      [GatewayOp.removeTeam "t1"]) ∧
    (∀ rec ∈ [(⟨AppliedChange.dir (DirectoryChange.TeamRemoved "t1"),
        some "remove team failed"⟩ : ChangeApplied)], rec.error ≠ none) := by
  refine ⟨rfl, by decide, by decide⟩

/-- Gateway oracle for the C7 counterexample: every mutation succeeds but
listing the invitations of `r1` fails. -/
def gwListInvitationsFails : Gateway :=
  { callResult := fun _ => none,
    listRepositoryInvitations := fun r =>
      if r = "r1" then .error "error listing invitations" else .ok [] }

/-- Change set for the C7 counterexample: a collaborator removal followed
by another change. -/
def changesAbort : Changes :=
  { directory := [],
    repositories :=
      [RepositoryChange.CollaboratorRemoved "r1" "u1",
       RepositoryChange.VisibilityUpdated "r2" Visibility.public] }

/-- Counterexample for claim C7: `reconcile` can return an error even
though both states were built (the change set is given): when handling
`CollaboratorRemoved("r1","u1")`, the `?` on `get_repository_invitation`
propagates the invitation-listing failure, aborting the reconciliation —
no record is produced and the subsequent `VisibilityUpdated("r2", public)`
is never attempted. -/
theorem reconcile_aborts_on_invitation_listing_cex :
    reconcileApply gwListInvitationsFails changesAbort =
      Except.error "error listing invitations" := rfl

/-- A directory-change record for `TeamRemoved(team)` exists exactly when
the change set contains that change — whether or not its application
succeeded. -/
theorem dirRecord_teamRemoved_mem (gw : Gateway) (t : String) :
    ∀ dcs : List DirectoryChange,
      AppliedChange.dir (DirectoryChange.TeamRemoved t) ∈
        (applyDirectoryChanges gw dcs).1.map ChangeApplied.change ↔
      DirectoryChange.TeamRemoved t ∈ dcs := by
  intro dcs
  induction dcs with
  | nil => simp [applyDirectoryChanges]
  | cons c rest ih =>
    cases c <;>
      simp [applyDirectoryChanges, directoryChangeOp, ih, List.mem_cons]

/-- The directory phase never issues a `remove_repository_team` call. -/
theorem removeRepositoryTeam_not_mem_dirTrace (gw : Gateway)
    (r t : String) :
    ∀ dcs : List DirectoryChange,
      GatewayOp.removeRepositoryTeam r t ∉
        (applyDirectoryChanges gw dcs).2 := by
  intro dcs
  induction dcs with
  | nil => simp [applyDirectoryChanges]
  | cons c rest ih =>
    cases c <;>
      simp [applyDirectoryChanges, directoryChangeOp, ih, List.mem_cons]

/-- Appending a repository-change record does not affect the
suppression scan, which only matches directory records. -/
theorem suppressed_append_repo (applied : List ChangeApplied)
    (c' : RepositoryChange) (e : Option String) (c : RepositoryChange) :
    suppressedTeamRemoval (applied ++ [⟨.repo c', e⟩]) c =
      suppressedTeamRemoval applied c := by
  cases c <;> simp [suppressedTeamRemoval]

/-- The gateway call chosen for a repository change is
`remove_repository_team(r, t)` exactly when the change is
`TeamRemoved(r, t)`. -/
theorem repositoryChangeOp_removeTeam_iff (gw : Gateway) (r t : String) :
    ∀ (c : RepositoryChange) (op : GatewayOp),
      repositoryChangeOp gw c = .ok op →
      (op = GatewayOp.removeRepositoryTeam r t ↔
        c = RepositoryChange.TeamRemoved r t) := by
  intro c op hop
  cases c with
  | RepositoryAdded repo =>
    simp [repositoryChangeOp] at hop
    subst hop
    simp
  | TeamAdded r' t' role =>
    simp [repositoryChangeOp] at hop
    subst hop
    simp
  | TeamRemoved r' t' =>
    simp [repositoryChangeOp] at hop
    subst hop
    simp
  | TeamRoleUpdated r' t' role =>
    simp [repositoryChangeOp] at hop
    subst hop
    simp
  | CollaboratorAdded r' u role =>
    simp [repositoryChangeOp] at hop
    subst hop
    simp
  | CollaboratorRemoved r' u =>
    cases hl : gw.listRepositoryInvitations r' with
    | error e =>
      simp [repositoryChangeOp, getRepositoryInvitation, hl, Except.map]
        at hop
    | ok l =>
      simp [repositoryChangeOp, getRepositoryInvitation, hl, Except.map]
        at hop
      rcases hinv : l.findSome?
          (fun i => if i.invitee = some u then some i.id else none) with
        _ | invitation_id <;>
        rw [hinv] at hop <;> subst hop <;> simp
  | CollaboratorRoleUpdated r' u role =>
    cases hl : gw.listRepositoryInvitations r' with
    | error e =>
      simp [repositoryChangeOp, getRepositoryInvitation, hl, Except.map]
        at hop
    | ok l =>
      simp [repositoryChangeOp, getRepositoryInvitation, hl, Except.map]
        at hop
      rcases hinv : l.findSome?
          (fun i => if i.invitee = some u then some i.id else none) with
        _ | invitation_id <;>
        rw [hinv] at hop <;> subst hop <;> simp
  | VisibilityUpdated r' v =>
    simp [repositoryChangeOp] at hop
    subst hop
    simp

/-- Trace characterization of the repositories phase: a
`remove_repository_team(r, t)` call appears exactly when the change set
holds `TeamRemoved(r, t)` and no directory record for
`DirectoryChange::TeamRemoved(t)` was accumulated. -/
theorem applyRepositoryChanges_removeTeam_trace (gw : Gateway)
    (r t : String) :
    ∀ (rcs : List RepositoryChange) (applied recs : List ChangeApplied)
      (trace : List GatewayOp),
      applyRepositoryChanges gw applied rcs = Except.ok (recs, trace) →
      (GatewayOp.removeRepositoryTeam r t ∈ trace ↔
        (RepositoryChange.TeamRemoved r t ∈ rcs ∧
          AppliedChange.dir (DirectoryChange.TeamRemoved t) ∉
            applied.map ChangeApplied.change)) := by
  intro rcs
  induction rcs with
  | nil =>
    intro applied recs trace hok
    simp [applyRepositoryChanges] at hok
    obtain ⟨h1, h2⟩ := hok
    subst h2
    simp
  | cons c rest ih =>
    intro applied recs trace hok
    by_cases hsup : suppressedTeamRemoval applied c = true
    · rw [show applyRepositoryChanges gw applied (c :: rest) =
          applyRepositoryChanges gw applied rest from by
        simp [applyRepositoryChanges, hsup]] at hok
      rw [ih applied recs trace hok]
      cases c with
      | TeamRemoved r' t' =>
        simp only [suppressedTeamRemoval, decide_eq_true_eq] at hsup
        by_cases ht : t = t'
        · subst ht
          simp [hsup, List.mem_cons]
        · constructor
          · rintro ⟨hmem, hns⟩
            exact ⟨List.mem_cons_of_mem _ hmem, hns⟩
          · rintro ⟨hmem, hns⟩
            rcases List.mem_cons.mp hmem with heq | hmem
            · injection heq with h1 h2
              exact absurd h2 ht
            · exact ⟨hmem, hns⟩
      | RepositoryAdded repo => simp [suppressedTeamRemoval] at hsup
      | TeamAdded r' t' role => simp [suppressedTeamRemoval] at hsup
      | TeamRoleUpdated r' t' role => simp [suppressedTeamRemoval] at hsup
      | CollaboratorAdded r' u role => simp [suppressedTeamRemoval] at hsup
      | CollaboratorRemoved r' u => simp [suppressedTeamRemoval] at hsup
      | CollaboratorRoleUpdated r' u role =>
        simp [suppressedTeamRemoval] at hsup
      | VisibilityUpdated r' v => simp [suppressedTeamRemoval] at hsup
    · cases hopc : repositoryChangeOp gw c with
      | error e =>
        rw [show applyRepositoryChanges gw applied (c :: rest) =
            Except.error e from by
          simp [applyRepositoryChanges, hsup, hopc]] at hok
        cases hok
      | ok op =>
        rw [show applyRepositoryChanges gw applied (c :: rest) =
            (applyRepositoryChanges gw
              (applied ++ [⟨.repo c, gw.callResult op⟩]) rest).map
              (fun p => (p.1, op :: p.2)) from by
          simp [applyRepositoryChanges, hsup, hopc]] at hok
        cases hrec : applyRepositoryChanges gw
            (applied ++ [⟨.repo c, gw.callResult op⟩]) rest with
        | error e => rw [hrec] at hok; cases hok
        | ok p =>
          rw [hrec] at hok
          obtain ⟨recs', trace'⟩ := p
          simp [Except.map] at hok
          obtain ⟨hrecs, htrace⟩ := hok
          subst htrace
          have hih := ih _ recs' trace' hrec
          rw [List.map_append] at hih
          simp only [List.map_cons, List.map_nil] at hih
          have hmemapp : AppliedChange.dir (DirectoryChange.TeamRemoved t) ∈
              applied.map ChangeApplied.change ++ [AppliedChange.repo c] ↔
              AppliedChange.dir (DirectoryChange.TeamRemoved t) ∈
                applied.map ChangeApplied.change := by
            simp [List.mem_append]
          rw [hmemapp] at hih
          have hopiff := repositoryChangeOp_removeTeam_iff gw r t c op hopc
          constructor
          · intro hmem
            rcases List.mem_cons.mp hmem with heq | hmem
            · have hc : c = RepositoryChange.TeamRemoved r t :=
                hopiff.mp heq.symm
              subst hc
              refine ⟨List.mem_cons_self _ _, ?_⟩
              simp only [suppressedTeamRemoval, decide_eq_true_eq,
                Bool.not_eq_true] at hsup
              intro hmem'
              exact hsup hmem'
            · obtain ⟨hmem', hns⟩ := hih.mp hmem
              exact ⟨List.mem_cons_of_mem _ hmem', hns⟩
          · rintro ⟨hmem, hns⟩
            rcases List.mem_cons.mp hmem with heq | hmem
            · have hop : op = GatewayOp.removeRepositoryTeam r t :=
                hopiff.mpr heq.symm
              rw [hop]
              exact List.mem_cons_self _ _
            · exact List.mem_cons_of_mem _ (hih.mpr ⟨hmem, hns⟩)

/-- Claim C4 (amended): cascade suppression is keyed on the presence of
the directory-level removal, not on its success.  In a completed
reconciliation, `remove_repository_team(repo, team)` appears in the
gateway trace if and only if the change set holds
`RepositoryChange::TeamRemoved(repo, team)` and the directory change set
does not hold `DirectoryChange::TeamRemoved(team)` — whether the
directory-level removal succeeded or failed is irrelevant. -/
theorem cascade_suppression_iff (gw : Gateway) (changes : Changes)
    (recs : List ChangeApplied) (trace : List GatewayOp)
    (hok : reconcileApply gw changes = Except.ok (recs, trace))
    (repo_name team_name : String) :
    GatewayOp.removeRepositoryTeam repo_name team_name ∈ trace ↔
      (RepositoryChange.TeamRemoved repo_name team_name ∈
          changes.repositories ∧
        DirectoryChange.TeamRemoved team_name ∉ changes.directory) := by
  unfold reconcileApply at hok
  cases hrec : applyRepositoryChanges gw
      (applyDirectoryChanges gw changes.directory).1 changes.repositories with
  | error e => rw [hrec] at hok; cases hok
  | ok p =>
    rw [hrec] at hok
    obtain ⟨recs', trace'⟩ := p
    simp [Except.map] at hok
    obtain ⟨hrecs, htrace⟩ := hok
    subst htrace
    rw [List.mem_append]
    have hdir := removeRepositoryTeam_not_mem_dirTrace gw repo_name
      team_name changes.directory
    have hrepo := applyRepositoryChanges_removeTeam_trace gw repo_name
      team_name changes.repositories _ recs' trace' hrec
    rw [dirRecord_teamRemoved_mem gw team_name changes.directory] at hrepo
    constructor
    · rintro (hmem | hmem)
      · exact absurd hmem hdir
      · exact hrepo.mp hmem
    · intro hrhs
      exact Or.inr (hrepo.mpr hrhs)

/-- Gateway oracle where every call succeeds and every listing is
empty. -/
def gwAllOk : Gateway :=
  { callResult := fun _ => none,
    listRepositoryInvitations := fun _ => .ok [] }

/-- Witness for the amended C4 at a concrete reconciliation: the removal
of `t1` suppresses the repo-level unlink for `t1` but not for `t2`. -/
theorem cascade_suppression_iff_witness :
    GatewayOp.removeRepositoryTeam "r1" "t2" ∈
      [GatewayOp.removeTeam "t1", GatewayOp.removeRepositoryTeam "r1" "t2"] ↔
      (RepositoryChange.TeamRemoved "r1" "t2" ∈
          [RepositoryChange.TeamRemoved "r1" "t1",
           RepositoryChange.TeamRemoved "r1" "t2"] ∧
        DirectoryChange.TeamRemoved "t2" ∉
          [DirectoryChange.TeamRemoved "t1"]) :=
  cascade_suppression_iff gwAllOk
    { directory := [DirectoryChange.TeamRemoved "t1"],
      repositories :=
        [RepositoryChange.TeamRemoved "r1" "t1",
         RepositoryChange.TeamRemoved "r1" "t2"] }
    [⟨AppliedChange.dir (DirectoryChange.TeamRemoved "t1"), none⟩,
     ⟨AppliedChange.repo (RepositoryChange.TeamRemoved "r1" "t2"), none⟩]
    [GatewayOp.removeTeam "t1", GatewayOp.removeRepositoryTeam "r1" "t2"]
    rfl "r1" "t2"

/-- The directory phase records exactly the non-user changes, in order,
regardless of the per-call results. -/
theorem applyDirectoryChanges_records (gw : Gateway) :
    ∀ dcs : List DirectoryChange,
      (applyDirectoryChanges gw dcs).1.map ChangeApplied.change =
        (dcs.filter (fun c => (directoryChangeOp c).isSome)).map
          AppliedChange.dir := by
  intro dcs
  induction dcs with
  | nil => simp [applyDirectoryChanges]
  | cons c rest ih =>
    cases hop : directoryChangeOp c with
    | none => simp [applyDirectoryChanges, hop, List.filter_cons, ih]
    | some op => simp [applyDirectoryChanges, hop, List.filter_cons, ih]

/-- A failing `repositoryChangeOp` comes from a failing invitation
listing. -/
theorem repositoryChangeOp_error (gw : Gateway) (c : RepositoryChange)
    (e : String) (h : repositoryChangeOp gw c = Except.error e) :
    ∃ rname, gw.listRepositoryInvitations rname = Except.error e := by
  cases c with
  | CollaboratorRemoved r u =>
    cases hl : gw.listRepositoryInvitations r with
    | error e' =>
      refine ⟨r, ?_⟩
      rw [hl]
      simp [repositoryChangeOp, getRepositoryInvitation, hl, Except.map] at h
      rw [h]
    | ok l =>
      simp [repositoryChangeOp, getRepositoryInvitation, hl, Except.map] at h
  | CollaboratorRoleUpdated r u role =>
    cases hl : gw.listRepositoryInvitations r with
    | error e' =>
      refine ⟨r, ?_⟩
      rw [hl]
      simp [repositoryChangeOp, getRepositoryInvitation, hl, Except.map] at h
      rw [h]
    | ok l =>
      simp [repositoryChangeOp, getRepositoryInvitation, hl, Except.map] at h
  | RepositoryAdded repo => simp [repositoryChangeOp] at h
  | TeamAdded r t role => simp [repositoryChangeOp] at h
  | TeamRemoved r t => simp [repositoryChangeOp] at h
  | TeamRoleUpdated r t role => simp [repositoryChangeOp] at h
  | CollaboratorAdded r u role => simp [repositoryChangeOp] at h
  | VisibilityUpdated r v => simp [repositoryChangeOp] at h

/-- When no invitation listing fails, every repository change resolves to
a gateway call. -/
theorem repositoryChangeOp_allOk (gw : Gateway)
    (hinv : ∀ rname, (gw.listRepositoryInvitations rname).isOk = true)
    (c : RepositoryChange) : ∃ op, repositoryChangeOp gw c = Except.ok op := by
  cases hop : repositoryChangeOp gw c with
  | ok op => exact ⟨op, rfl⟩
  | error e =>
    obtain ⟨rname, hr⟩ := repositoryChangeOp_error gw c e hop
    have := hinv rname
    rw [hr] at this
    simp [Except.isOk, Except.toBool] at this

/-- An aborted repositories phase stems from a failing invitation
listing, with the same error string. -/
theorem applyRepositoryChanges_error (gw : Gateway) :
    ∀ (rcs : List RepositoryChange) (applied : List ChangeApplied)
      (e : String),
      applyRepositoryChanges gw applied rcs = Except.error e →
      ∃ rname, gw.listRepositoryInvitations rname = Except.error e := by
  intro rcs
  induction rcs with
  | nil =>
    intro applied e h
    simp [applyRepositoryChanges] at h
  | cons c rest ih =>
    intro applied e h
    by_cases hsup : suppressedTeamRemoval applied c = true
    · rw [show applyRepositoryChanges gw applied (c :: rest) =
          applyRepositoryChanges gw applied rest from by
        simp [applyRepositoryChanges, hsup]] at h
      exact ih applied e h
    · cases hopc : repositoryChangeOp gw c with
      | error e' =>
        rw [show applyRepositoryChanges gw applied (c :: rest) =
            Except.error e' from by
          simp [applyRepositoryChanges, hsup, hopc]] at h
        injection h with h
        subst h
        exact repositoryChangeOp_error gw c e' hopc
      | ok op =>
        rw [show applyRepositoryChanges gw applied (c :: rest) =
            (applyRepositoryChanges gw
              (applied ++ [⟨.repo c, gw.callResult op⟩]) rest).map
              (fun p => (p.1, op :: p.2)) from by
          simp [applyRepositoryChanges, hsup, hopc]] at h
        cases hrec : applyRepositoryChanges gw
            (applied ++ [⟨.repo c, gw.callResult op⟩]) rest with
        | ok p => rw [hrec] at h; cases h
        | error e'' =>
          rw [hrec] at h
          injection h with h
          subst h
          exact ih _ e'' hrec

/-- When no invitation listing fails, the repositories phase completes
and records every non-suppressed change in order, whatever the per-call
results. -/
theorem applyRepositoryChanges_allOk (gw : Gateway)
    (hinv : ∀ rname, (gw.listRepositoryInvitations rname).isOk = true) :
    ∀ (rcs : List RepositoryChange) (applied : List ChangeApplied),
      ∃ recs trace,
        applyRepositoryChanges gw applied rcs = Except.ok (recs, trace) ∧
        recs.map ChangeApplied.change =
          applied.map ChangeApplied.change ++
          (rcs.filter (fun c => !suppressedTeamRemoval applied c)).map
            AppliedChange.repo := by
  intro rcs
  induction rcs with
  | nil =>
    intro applied
    exact ⟨applied, [], rfl, by simp⟩
  | cons c rest ih =>
    intro applied
    by_cases hsup : suppressedTeamRemoval applied c = true
    · obtain ⟨recs, trace, hok, hmap⟩ := ih applied
      refine ⟨recs, trace, ?_, ?_⟩
      · rw [show applyRepositoryChanges gw applied (c :: rest) =
            applyRepositoryChanges gw applied rest from by
          simp [applyRepositoryChanges, hsup]]
        exact hok
      · rw [hmap, List.filter_cons]
        simp [hsup]
    · obtain ⟨op, hopc⟩ := repositoryChangeOp_allOk gw hinv c
      obtain ⟨recs, trace, hok, hmap⟩ :=
        ih (applied ++ [⟨.repo c, gw.callResult op⟩])
      refine ⟨recs, op :: trace, ?_, ?_⟩
      · rw [show applyRepositoryChanges gw applied (c :: rest) =
            (applyRepositoryChanges gw
              (applied ++ [⟨.repo c, gw.callResult op⟩]) rest).map
              (fun p => (p.1, op :: p.2)) from by
          simp [applyRepositoryChanges, hsup, hopc]]
        rw [hok]
        rfl
      · rw [hmap, List.map_append]
        have hstab : ∀ x ∈ rest,
            (!suppressedTeamRemoval
              (applied ++ [⟨.repo c, gw.callResult op⟩]) x) =
            (!suppressedTeamRemoval applied x) := by
          intro x _
          rw [suppressed_append_repo]
        rw [List.filter_congr hstab, List.filter_cons]
        simp [hsup]

/-- The suppression test phrased on the change set itself: a repository
`TeamRemoved(_, team)` is processed exactly when the directory change set
does not remove that team. -/
def notSuppressed (changes : Changes) : RepositoryChange → Bool
  | .TeamRemoved _ team_name =>
    decide (DirectoryChange.TeamRemoved team_name ∉ changes.directory)
  | _ => true

theorem notSuppressed_eq (gw : Gateway) (changes : Changes)
    (c : RepositoryChange) :
    (!suppressedTeamRemoval (applyDirectoryChanges gw changes.directory).1 c) =
      notSuppressed changes c := by
  cases c <;>
    simp [suppressedTeamRemoval, notSuppressed,
      dirRecord_teamRemoved_mem gw]

/-- Claim C7 (amended): per-change gateway failures never abort the
reconciliation — when no invitation listing fails, the apply phase
completes and records every non-user directory change and every
non-suppressed repository change, in order, whatever errors the
individual calls return.  But besides state-building failures,
`reconcile` also returns an error whenever listing a repository's
invitations fails while handling `CollaboratorRemoved` or
`CollaboratorRoleUpdated` (the `?` on `get_repository_invitation`), and
every apply-phase error is such a listing error. -/
theorem reconcile_continues_after_change_errors (gw : Gateway)
    (changes : Changes) :
    ((∀ rname, (gw.listRepositoryInvitations rname).isOk = true) →
      ∃ recs trace, reconcileApply gw changes = Except.ok (recs, trace) ∧
        recs.map ChangeApplied.change =
          (changes.directory.filter
            (fun c => (directoryChangeOp c).isSome)).map AppliedChange.dir ++
          (changes.repositories.filter (notSuppressed changes)).map
            AppliedChange.repo) ∧
    (∀ e, reconcileApply gw changes = Except.error e →
      ∃ rname, gw.listRepositoryInvitations rname = Except.error e) := by
  constructor
  · intro hinv
    obtain ⟨recs, trace, hok, hmap⟩ :=
      applyRepositoryChanges_allOk gw hinv changes.repositories
        (applyDirectoryChanges gw changes.directory).1
    refine ⟨recs, (applyDirectoryChanges gw changes.directory).2 ++ trace,
      ?_, ?_⟩
    · unfold reconcileApply
      rw [hok]
      rfl
    · rw [hmap, applyDirectoryChanges_records gw changes.directory]
      congr 1
      rw [List.filter_congr
        (fun x _ => notSuppressed_eq gw changes x)]
  · intro e herr
    unfold reconcileApply at herr
    cases hrec : applyRepositoryChanges gw
        (applyDirectoryChanges gw changes.directory).1
        changes.repositories with
    | ok p => rw [hrec] at herr; cases herr
    | error e' =>
      rw [hrec] at herr
      injection herr with herr
      subst herr
      exact applyRepositoryChanges_error gw changes.repositories _ e' hrec

/-- Change set for the C7 witness. -/
def changesContinue : Changes :=
  { directory :=
      [DirectoryChange.TeamRemoved "t1", DirectoryChange.UserAdded "p"],
    repositories :=
      [RepositoryChange.TeamRemoved "r1" "t1",
       RepositoryChange.VisibilityUpdated "r2" Visibility.public] }

/-- Witness for the amended C7 at a concrete gateway with no listing
failures. -/
theorem reconcile_continues_after_change_errors_witness :
    ∃ recs trace,
      reconcileApply gwAllOk changesContinue = Except.ok (recs, trace) ∧
      recs.map ChangeApplied.change =
        (changesContinue.directory.filter
          (fun c => (directoryChangeOp c).isSome)).map AppliedChange.dir ++
        (changesContinue.repositories.filter
          (notSuppressed changesContinue)).map AppliedChange.repo :=
  (reconcile_continues_after_change_errors gwAllOk changesContinue).1
    (fun _ => rfl)

end Clowarden
